import Mathlib

/-!
Shallow embedding of the CloudFormation GitHub-Actions automation scripts:
tag processing (`cfn-deploy/process-tags.py`, `Scripts/main.py` TagProcessor),
parameter processing (`cfn-deploy/get-parameter-file.py`, `Scripts/main.py`
ParameterProcessor), deployment-matrix generation
(`combined-matrix-generator/generate_deployment_matrices.py`,
`Scripts/main.py` DeploymentMatrixGenerator, `cloud-formation/rcc/matrix_generator.py`)
and change detection (`detect-changes-action/detect_changed_applications.py`,
`Scripts/main.py` ChangeDetector).

Python strings are modelled as `List Char` (`PyStr`); parsed JSON/YAML values
as the inductive `JValue`; Python exceptions that the scripts do not catch are
modelled by `Except PyErr`.  File, subprocess and HTTP I/O (reading the config
files, `git` diffs, the GitHub API, S3) are external collaborators: functions
are embedded from the point where the data has been read.
-/

/-- Python strings, modelled as lists of characters. -/
abbrev PyStr := List Char

/-- The whitespace characters stripped by Python `str.strip()` (ASCII range). -/
def pyIsSpace (c : Char) : Bool :=
  c = ' ' || c = '\t' || c = '\n' || c = '\r' || c = '\x0b' || c = '\x0c'

/-- Python `str.lstrip()`. -/
def pyStripLeft (s : PyStr) : PyStr := s.dropWhile pyIsSpace

/-- Python `str.rstrip()`. -/
def pyStripRight (s : PyStr) : PyStr := (s.reverse.dropWhile pyIsSpace).reverse

/-- Python `str.strip()`. -/
def pyStrip (s : PyStr) : PyStr := pyStripRight (pyStripLeft s)

/-- Python `str.splitlines()`, for the line terminators `\n`, `\r` and `\r\n`
(the scripts feed it action-input text, where only these occur). -/
def splitlinesGo : PyStr → PyStr → List PyStr
  | [], acc => if acc.isEmpty then [] else [acc.reverse]
  | '\n' :: rest, acc => acc.reverse :: splitlinesGo rest []
  | '\r' :: '\n' :: rest, acc => acc.reverse :: splitlinesGo rest []
  | '\r' :: rest, acc => acc.reverse :: splitlinesGo rest []
  | c :: rest, acc => splitlinesGo rest (c :: acc)

/-- Python `str.splitlines()`. -/
def splitlines (s : PyStr) : List PyStr := splitlinesGo s []

/-- Values parsed from JSON or YAML documents (the shapes `json.loads` and
`yaml.safe_load` produce). -/
inductive JValue where
  | jnull
  | jbool (b : Bool)
  | jnum (n : Int)
  | jstr (s : String)
  | jarr (items : List JValue)
  | jobj (fields : List (String × JValue))

open JValue

mutual

/-- Structural boolean equality on parsed values.  The scripts use Python
`==` only to compare tag / parameter keys, which are strings once the inputs
are well formed; on strings this coincides with Python equality. -/
def jeq : JValue → JValue → Bool
  | jnull, jnull => true
  | jbool a, jbool b => a == b
  | jnum a, jnum b => a == b
  | jstr a, jstr b => a == b
  | jarr xs, jarr ys => jeqArr xs ys
  | jobj xs, jobj ys => jeqObj xs ys
  | _, _ => false

/-- Elementwise `jeq` on arrays. -/
def jeqArr : List JValue → List JValue → Bool
  | [], [] => true
  | x :: xs, y :: ys => jeq x y && jeqArr xs ys
  | _, _ => false

/-- Fieldwise `jeq` on objects. -/
def jeqObj : List (String × JValue) → List (String × JValue) → Bool
  | [], [] => true
  | (k1, v1) :: xs, (k2, v2) :: ys => k1 == k2 && jeq v1 v2 && jeqObj xs ys
  | _, _ => false

end

/-- Python exceptions the scripts leave uncaught (they abort the process). -/
inductive PyErr where
  | typeError (msg : String)
  | keyError (key : JValue)
  | attributeError (msg : String)

/-- Python truthiness (`bool(x)`) on parsed JSON/YAML values. -/
def pyTruthy : JValue → Bool
  | jnull => false
  | jbool b => b
  | jnum n => n != 0
  | jstr s => s != ""
  | jarr items => !items.isEmpty
  | jobj fields => !fields.isEmpty

/-- `pre` a prefix of `s` (Python `str.startswith`). -/
def startsWithList : PyStr → PyStr → Bool
  | [], _ => true
  | _ :: _, [] => false
  | p :: ps, c :: cs => p == c && startsWithList ps cs

/-- `suf` a suffix of `s` (Python `str.endswith`). -/
def endsWithList (suf s : PyStr) : Bool := startsWithList suf.reverse s.reverse

/-- Python `needle in hay` on strings (substring containment). -/
def isSubstr (needle : PyStr) : PyStr → Bool
  | [] => needle.isEmpty
  | c :: rest => startsWithList needle (c :: rest) || isSubstr needle rest

/-- Worker for `stripSecretAll`; the fuel argument (initially the string
length) only makes the recursion structural and never runs out. -/
def stripSecretAllGo : Nat → PyStr → PyStr
  | _, [] => []
  | 0, l => l
  | n + 1, c :: rest =>
      if startsWithList "SECRET:".data (c :: rest) then stripSecretAllGo n (rest.drop 6)
      else c :: stripSecretAllGo n rest

/-- Python `value.replace("SECRET:", "")`: remove every (leftmost,
non-overlapping) occurrence of `SECRET:`. -/
def stripSecretAll (l : PyStr) : PyStr := stripSecretAllGo l.length l

/-- First-match lookup in an object's field list.  Field lists stand for
Python dicts produced by `json.loads` / `yaml.safe_load`, whose keys are
unique, so first match agrees with dict lookup. -/
def lookupStr : List (String × JValue) → String → Option JValue
  | [], _ => none
  | (k, v) :: fs, key => if k == key then some v else lookupStr fs key

/-- Field lookup on a value; `none` when the value is not an object or the
field is missing. -/
def getField (v : JValue) (key : String) : Option JValue :=
  match v with
  | jobj fs => lookupStr fs key
  | _ => none

/-- Python `v[key]` for a string key: `KeyError` on a missing dict key,
`TypeError` when `v` is not a dict. -/
def pySubscr (v : JValue) (key : String) : Except PyErr JValue :=
  match v with
  | jobj fs =>
      match lookupStr fs key with
      | some x => Except.ok x
      | none => Except.error (.keyError (jstr key))
  | jstr _ => Except.error (.typeError "string indices must be integers")
  | jarr _ => Except.error (.typeError "list indices must be integers")
  | _ => Except.error (.typeError "object is not subscriptable")

/-- Python `for x in v`: lists yield elements, dicts yield their keys,
strings yield one-character strings, everything else raises `TypeError`. -/
def pyIter (v : JValue) : Except PyErr (List JValue) :=
  match v with
  | jarr items => Except.ok items
  | jobj fields => Except.ok (fields.map (fun f => jstr f.1))
  | jstr s => Except.ok (s.data.map (fun c => jstr (String.mk [c])))
  | _ => Except.error (.typeError "object is not iterable")

/-- Python `len(v)`; `TypeError` on values without a length. -/
def pyLen (v : JValue) : Except PyErr Nat :=
  match v with
  | jarr items => Except.ok items.length
  | jobj fields => Except.ok fields.length
  | jstr s => Except.ok s.length
  | _ => Except.error (.typeError "object has no len")

/-- Whether a value may be used as a Python dict key. -/
def pyHashable : JValue → Bool
  | jarr _ => false
  | jobj _ => false
  | _ => true

/-- A Python dict mapping parsed values to list indices (the scripts'
`existing_tags` / `existing_params` lookup tables). -/
abbrev JDict := List (JValue × Nat)

/-- Dict lookup by Python equality (`jeq`). -/
def dictLookup : JDict → JValue → Option Nat
  | [], _ => none
  | (k, i) :: d, key => if jeq k key then some i else dictLookup d key

/-- Dict insertion: replace the value at an existing key, else append. -/
def dictIns : JDict → JValue → Nat → JDict
  | [], key, i => [(key, i)]
  | (k, j) :: d, key, i =>
      if jeq k key then (k, i) :: d else (k, j) :: dictIns d key i

/-- The comprehension `{item[field]: i for i, item in enumerate(items)}`
(used with `field` = `Key` and `ParameterKey`); raises like Python when an
item is not a dict, lacks the field, or the field value is unhashable. -/
def buildIndexByGo (field : String) : List JValue → Nat → JDict → Except PyErr JDict
  | [], _, d => Except.ok d
  | t :: ts, i, d => do
      let k ← pySubscr t field
      if pyHashable k then buildIndexByGo field ts (i + 1) (dictIns d k i)
      else Except.error (.typeError "unhashable type")

/-- See `buildIndexByGo`. -/
def buildIndexBy (field : String) (items : List JValue) : Except PyErr JDict :=
  buildIndexByGo field items 0 []

/-!
### Tag processing

Two variants exist in the repository:

* `cfn-deploy/process-tags.py` `main` (lines 21-78): the `key=value` source is
  parsed first by plain appends, then the JSON source is merged second with a
  keyed-merge whose index table is never refreshed — JSON wins on duplicates;
* `Scripts/main.py` `TagProcessor.execute` / `_process_json_tags` /
  `_process_key_value_tags` (lines 440-546): the JSON source is extended into
  the working list first, then the `key=value` source is merged second with a
  keyed-merge whose index table is kept in sync — key=value wins.

The JSON input is modelled after `json.loads` has run: `JsonSrc.absent` is an
empty input string (the branch is skipped), `JsonSrc.malformed` a nonempty
input rejected with `json.JSONDecodeError` (caught and ignored), and
`JsonSrc.parsed v` a nonempty input parsed to `v`.
-/

/-- Result of running `json.loads` on a tag/parameter action input. -/
inductive JsonSrc where
  | absent
  | malformed
  | parsed (v : JValue)

/-- The dict literal both tag loops append: `{"Key": k, "Value": v}`. -/
def mkTagS (k v : String) : JValue := jobj [("Key", jstr k), ("Value", jstr v)]

/-- `mkTagS` over character lists. -/
def mkTag (k v : PyStr) : JValue := mkTagS (String.mk k) (String.mk v)

/-- Quote characters recognised by the tag value regex. -/
def isQuote (c : Char) : Bool := c = '"' || c = '\''

/-- `re.sub(r'^["\x27](.*)["\x27]$', r'\x5c1', value)` on a newline-free
`value` (values are fragments of a single line, so `.` and `$` subtleties do
not arise): drop the first and last character when both are quote characters
(single or double, independently) and the string has length at least two. -/
def stripQuotes (v : PyStr) : PyStr :=
  if 2 ≤ v.length && isQuote (v.headD ' ') && isQuote (v.getLastD ' ') then
    v.tail.dropLast
  else v

/-- Split a line at its first `=`; `none` when the line has no `=`
(`if '=' in line: key, value = line.split('=', 1)`). -/
def splitFirstEq : PyStr → Option (PyStr × PyStr)
  | [] => none
  | '=' :: rest => some ([], rest)
  | c :: rest =>
      match splitFirstEq rest with
      | some (a, b) => some (c :: a, b)
      | none => none

/-- One iteration of the `key=value` line loop shared by both tag variants:
strip the line, skip blanks and `#` comments and lines without `=`, split at
the first `=`, strip key and value, strip one layer of quotes from the
value.  Returns the key/value pair a non-skipped line contributes. -/
def parseKvLine (line : PyStr) : Option (PyStr × PyStr) :=
  if (pyStrip line).isEmpty then none
  else if (pyStrip line).headD ' ' = '#' then none
  else
    match splitFirstEq (pyStrip line) with
    | none => none
    | some (k, v) => some (pyStrip k, stripQuotes (pyStrip v))

/-- `process-tags.py` lines 22-45: the `key=value` phase appends one tag per
valid line, with no duplicate detection. -/
def kvAppendTags (lines : List PyStr) : List JValue :=
  lines.foldl
    (fun acc line =>
      match parseKvLine line with
      | none => acc
      | some (k, v) => acc ++ [mkTag k v])
    []

/-- `process-tags.py` lines 53-64: merge the parsed JSON tags into the
working list.  `existing` is the index table built once before the loop and
never updated, so a JSON key absent from it is appended even if an earlier
JSON iteration already appended it. -/
def jsonMergeStale (existing : JDict) : List JValue → List JValue → Except PyErr (List JValue)
  | [], combined => Except.ok combined
  | t :: ts, combined => do
      let key ← pySubscr t "Key"
      if pyHashable key then
        match dictLookup existing key with
        | some i => jsonMergeStale existing ts (combined.set i t)
        | none => jsonMergeStale existing ts (combined ++ [t])
      else Except.error (.typeError "unhashable type")

/-- `cfn-deploy/process-tags.py` `main`, lines 21-78, as a function of the two
tag inputs: key=value phase first, JSON phase second (JSON wins on duplicate
keys), then the mandatory-tags check.  Result `(1, none)` is `sys.exit(1)`
with no `TAGS` output; `(0, some tags)` writes `TAGS=json.dumps(tags)` and
exits 0.  Only `json.JSONDecodeError` is caught around the JSON branch. -/
def processTagsMain (tagsKv : String) (tagsJson : JsonSrc) : Except PyErr (Nat × Option (List JValue)) := do
  let combined0 := if tagsKv = "" then [] else kvAppendTags (splitlines tagsKv.data)
  let combined ←
    match tagsJson with
    | .absent => Except.ok combined0
    | .malformed => Except.ok combined0
    | .parsed v => do
        let existing ← buildIndexBy "Key" combined0
        let items ← pyIter v
        jsonMergeStale existing items combined0
  if combined.isEmpty then Except.ok (1, none)
  else Except.ok (0, some combined)

/-- `Scripts/main.py` `TagProcessor._process_json_tags` (lines 477-494):
parse, log `len(json_tags)`, and `combined_tags.extend(json_tags)`; a
`json.JSONDecodeError` is caught and the list returned unchanged. -/
def process_json_tags (tagsJson : JsonSrc) (combined : List JValue) : Except PyErr (List JValue) :=
  match tagsJson with
  | .malformed => Except.ok combined
  | .absent => Except.ok combined
  | .parsed v => do
      let _ ← pyLen v
      let items ← pyIter v
      Except.ok (combined ++ items)

/-- One `key=value` upsert of `TagProcessor._process_key_value_tags`
(lines 527-541): replace at the recorded index, or append and record the new
index — the index table is kept in sync. -/
def kvUpsertTag (st : List JValue × JDict) (k v : PyStr) : List JValue × JDict :=
  let keyJ := jstr (String.mk k)
  match dictLookup st.2 keyJ with
  | some i => (st.1.set i (mkTag k v), st.2)
  | none => (st.1 ++ [mkTag k v], dictIns st.2 keyJ st.1.length)

/-- The line loop of `TagProcessor._process_key_value_tags` (lines 509-543). -/
def kvMergeTags (lines : List PyStr) (st : List JValue × JDict) : List JValue × JDict :=
  lines.foldl
    (fun st line =>
      match parseKvLine line with
      | none => st
      | some (k, v) => kvUpsertTag st k v)
    st

/-- The `if tags_key_value:` block of `TagProcessor.execute` (lines
459-461): with a nonempty input, build the key index of the working list and
run the key=value merge over its lines. -/
def tagKvPhase (tagsKv : String) (combined0 : List JValue) : Except PyErr (List JValue) :=
  if tagsKv = "" then Except.ok combined0
  else do
    let existing ← buildIndexBy "Key" combined0
    Except.ok (kvMergeTags (splitlines tagsKv.data) (combined0, existing)).1

/-- `Scripts/main.py` `TagProcessor.execute`, lines 440-475: JSON source
extended first, key=value source merged second (key=value wins on duplicate
keys), then the mandatory-tags check.  Result `(1, none)` is `return 1` with
no `TAGS` output; `(0, some tags)` writes `TAGS=json.dumps(tags)` and
returns 0. -/
def tagProcessorExecute (tagsJson : JsonSrc) (tagsKv : String) : Except PyErr (Nat × Option (List JValue)) := do
  let combined0 ←
    match tagsJson with
    | .absent => Except.ok []
    | src => process_json_tags src []
  let combined ← tagKvPhase tagsKv combined0
  if combined.isEmpty then Except.ok (1, none)
  else Except.ok (0, some combined)

/-!
### Parameter processing

`Scripts/main.py` `ParameterProcessor._process_file_parameters` (lines
299-348) and `_process_inline_parameters` (lines 350-407); the standalone
`cfn-deploy/get-parameter-file.py` `main` (lines 36-122) and
`.github/scripts/secret-handler.py` `process_parameters_with_secrets`
(lines 171-210) apply the same `SECRET:` substitution rule.  Secret maps are
loaded from JSON env data whose values are strings, so they are modelled as
`List (String × String)`.
-/

/-- First-match lookup in the secret map (`secret_name in github_secrets` /
`github_secrets[secret_name]`). -/
def lookupSecret : List (String × String) → String → Option String
  | [], _ => none
  | (k, v) :: rest, key => if k == key then some v else lookupSecret rest key

/-- Replace the (first) binding of `key`, or append a new one — Python's
`d[key] = v` on the field list of a dict. -/
def setFieldList : List (String × JValue) → String → JValue → List (String × JValue)
  | [], key, v => [(key, v)]
  | (k, x) :: fs, key, v =>
      if k == key then (k, v) :: fs else (k, x) :: setFieldList fs key v

/-- `p[key] = v` when `p` is a dict (the only shape the call sites reach). -/
def setField (p : JValue) (key : String) (v : JValue) : JValue :=
  match p with
  | jobj fs => jobj (setFieldList fs key v)
  | other => other

/-- Loop body of the list branch of `_process_file_parameters` (lines
317-322): if `param.get("ParameterValue")` is a string starting with
`SECRET:` and the remainder (after `.replace("SECRET:", "")`) names a known
secret, overwrite the value; otherwise leave the record as it is.
`param.get` on a non-dict raises `AttributeError`. -/
def substFileParam (secrets : List (String × String)) (p : JValue) : Except PyErr JValue :=
  match p with
  | jobj fs =>
      match lookupStr fs "ParameterValue" with
      | some (jstr s) =>
          if startsWithList "SECRET:".data s.data then
            match lookupSecret secrets (String.mk (stripSecretAll s.data)) with
            | some sec => Except.ok (jobj (setFieldList fs "ParameterValue" (jstr sec)))
            | none => Except.ok p
          else Except.ok p
      | _ => Except.ok p
  | _ => Except.error (.attributeError "get")

/-- Value substitution of the dict branch of `_process_file_parameters`
(lines 329-338). -/
def substDictValue (secrets : List (String × String)) (v : JValue) : JValue :=
  match v with
  | jstr s =>
      if startsWithList "SECRET:".data s.data then
        match lookupSecret secrets (String.mk (stripSecretAll s.data)) with
        | some sec => jstr sec
        | none => jstr s
      else jstr s
  | other => other

/-- The `for param in file_parameters` loop: apply `f` to each element,
propagating the first exception. -/
def mapExcept {α β : Type} (f : α → Except PyErr β) : List α → Except PyErr (List β)
  | [] => Except.ok []
  | x :: xs => do
      let y ← f x
      let ys ← mapExcept f xs
      Except.ok (y :: ys)

/-- `ParameterProcessor._process_file_parameters` (lines 299-348): empty or
falsy input gives `[]`; a list input is passed through with per-record
`SECRET:` substitution; a dict input is substituted and converted to
`ParameterKey`/`ParameterValue` records in dict order; any other truthy
shape raises `AttributeError` at `.items()`. -/
def process_file_parameters (fileParams : JValue) (secrets : List (String × String)) : Except PyErr (List JValue) :=
  if !pyTruthy fileParams then Except.ok []
  else
    match fileParams with
    | jarr ps => mapExcept (substFileParam secrets) ps
    | jobj fs =>
        Except.ok (fs.map (fun f =>
          jobj [("ParameterKey", jstr f.1), ("ParameterValue", substDictValue secrets f.2)]))
    | _ => Except.error (.attributeError "items")

/-- Lines 385-390 of `_process_inline_parameters`: substitute a `SECRET:`
value of an inline record; `param["ParameterValue"]` raises `KeyError` when
the field is missing. -/
def substInlineParam (secrets : List (String × String)) (p : JValue) : Except PyErr JValue := do
  let pv ← pySubscr p "ParameterValue"
  match pv with
  | jstr s =>
      if startsWithList "SECRET:".data s.data then
        match lookupSecret secrets (String.mk (stripSecretAll s.data)) with
        | some sec => Except.ok (setField p "ParameterValue" (jstr sec))
        | none => Except.ok p
      else Except.ok p
  | _ => Except.ok p

/-- The per-record loop of `_process_inline_parameters` (lines 381-398):
extract the key, substitute secrets, then replace at the index recorded in
`existing` or append.  `existing` is built once before the loop and never
updated on appends, so two inline records with the same new key are both
appended. -/
def inlineMergeStale (secrets : List (String × String)) (existing : JDict) : List JValue → List JValue → Except PyErr (List JValue)
  | [], combined => Except.ok combined
  | p :: ps, combined => do
      let key ← pySubscr p "ParameterKey"
      let p2 ← substInlineParam secrets p
      if pyHashable key then
        match dictLookup existing key with
        | some i => inlineMergeStale secrets existing ps (combined.set i p2)
        | none => inlineMergeStale secrets existing ps (combined ++ [p2])
      else Except.error (.typeError "unhashable type")

/-- `ParameterProcessor._process_inline_parameters` (lines 350-407): parse
the inline JSON (a decode error logs and returns the current list), convert
a dict to records, build the key→index table from the current list, then run
the merge loop. -/
def process_inline_parameters (inline : JsonSrc) (combined : List JValue) (secrets : List (String × String)) : Except PyErr (List JValue) :=
  match inline with
  | .malformed => Except.ok combined
  | .absent => Except.ok combined
  | .parsed v => do
      let ps ←
        match v with
        | jarr items => Except.ok items
        | jobj fs =>
            Except.ok (fs.map (fun f => jobj [("ParameterKey", jstr f.1), ("ParameterValue", f.2)]))
        | _ => Except.error (.attributeError "items")
      let existing ← buildIndexBy "ParameterKey" combined
      inlineMergeStale secrets existing ps combined

/-- The combined parameter merge (`ParameterProcessor.execute` lines
146-155 / `get-parameter-file.py` lines 36-122): file source first, inline
source second.  `none` for a source means its input was empty and its branch
skipped. -/
def parameterMergerMerge (fileParams : Option JValue) (inline : Option JsonSrc) (secrets : List (String × String)) : Except PyErr (List JValue) := do
  let combined ←
    match fileParams with
    | none => Except.ok []
    | some fp => process_file_parameters fp secrets
  match inline with
  | none => Except.ok combined
  | some src => process_inline_parameters src combined secrets

/-- The `ParameterKey` of a well-formed record (`""` otherwise). -/
def paramKeyD (p : JValue) : String :=
  match getField p "ParameterKey" with
  | some (jstr k) => k
  | _ => ""

/-- The keys of a parameter record list. -/
def paramKeysOf (ps : List JValue) : List String := ps.map paramKeyD

/-- Boolean test that a record's `ParameterKey` is the string `K`. -/
def paramKeyIs (K : String) (p : JValue) : Bool :=
  match getField p "ParameterKey" with
  | some (jstr k) => k == K
  | _ => false

/-- Well-formed parameter record: a dict with a string `ParameterKey` and
some `ParameterValue`. -/
def isParamRec (p : JValue) : Bool :=
  match p with
  | jobj fs =>
      (match lookupStr fs "ParameterKey" with
       | some (jstr _) => (lookupStr fs "ParameterValue").isSome
       | _ => false)
  | _ => false

/-- The `Key` of a well-formed tag (`""` otherwise). -/
def tagKeyD (t : JValue) : String :=
  match getField t "Key" with
  | some (jstr k) => k
  | _ => ""

/-- The keys of a tag list. -/
def tagKeysOf (ts : List JValue) : List String := ts.map tagKeyD

/-- Boolean test that a tag's `Key` is the string `K`. -/
def tagKeyIs (K : String) (t : JValue) : Bool :=
  match getField t "Key" with
  | some (jstr k) => k == K
  | _ => false

/-- Well-formed tag record: a dict with a string `Key`. -/
def isTagRec (t : JValue) : Bool :=
  match t with
  | jobj fs =>
      (match lookupStr fs "Key" with
       | some (jstr _) => true
       | _ => false)
  | _ => false

/-- All dict keys are strings. -/
def dictStr (d : JDict) : Prop := ∀ e ∈ d, ∃ s, e.1 = jstr s

/-- Invariant of the key=value merge loop of `TagProcessor`: the working
list holds well-formed tags with pairwise distinct keys, and
`existing_tags` maps each key to its (unique) index. -/
def GoodTagState (st : List JValue × JDict) : Prop :=
  (∀ t ∈ st.1, isTagRec t = true) ∧ (tagKeysOf st.1).Nodup ∧ dictStr st.2 ∧
  ∀ s : String, dictLookup st.2 (jstr s) =
    List.findIdx? (fun x => x == s) (tagKeysOf st.1) 0

/-!
### Environment filtering and matrix generation

`combined-matrix-generator/generate_deployment_matrices.py` `main` (lines
31-204) and `Scripts/main.py` `DeploymentMatrixGenerator` (lines 552-848)
implement the same per-resource logic; `cloud-formation/rcc/matrix_generator.py`
`generate_matrix` (lines 53-78) is an older variant without field validation.

The comma branch of the environment filter interpolates the user-supplied
names, unescaped, into the regular expression `^(name1|...|nameN)$` and runs
`re.match`.  `dotMatch` models Python matching of one alternative for
patterns built from literal characters and the `.` wildcard (which matches
any character except a newline); `reMatchAlt` adds the `$`-before-a-final-
newline behaviour of `re.match`.  Theorems that need exact-match semantics
hypothesise that the names contain no regex metacharacters, under which this
model agrees with Python's full regex engine.
-/

/-- Characters with a special meaning in Python regular expressions. -/
def isReMeta (c : Char) : Bool :=
  c = '.' || c = '^' || c = '$' || c = '*' || c = '+' || c = '?' ||
  c = '\x7b' || c = '\x7d' || c = '[' || c = ']' || c = '(' || c = ')' ||
  c = '\\' || c = '|'

/-- Full match of one alternative against a candidate: positionwise, a
pattern character matches itself, and `.` matches anything but `\n`. -/
def dotMatch : PyStr → PyStr → Bool
  | [], [] => true
  | p :: ps, c :: cs => (p == c || (p == '.' && c != '\n')) && dotMatch ps cs
  | _, _ => false

/-- `re.match("^(" + "|".join(names) + ")$", cand)`: some alternative fully
matches the candidate, or fully matches it minus a terminal newline (`$`
also matches just before a final `\n`). -/
def reMatchAlt (names : List PyStr) (cand : PyStr) : Bool :=
  names.any (fun n =>
    dotMatch n cand || (cand.getLast? == some '\n' && dotMatch n cand.dropLast))

/-- Python `str.split(',')`: every chunk, empties included. -/
def splitOnCommaGo : PyStr → PyStr → List PyStr
  | [], acc => [acc.reverse]
  | ',' :: rest, acc => acc.reverse :: splitOnCommaGo rest []
  | c :: rest, acc => splitOnCommaGo rest (c :: acc)

/-- Python `str.split(',')`. -/
def splitOnComma (s : PyStr) : List PyStr := splitOnCommaGo s []

/-- `[env.strip() for env in specific_environment.split(',') if env.strip()]`. -/
def selectedNames (specific : String) : List PyStr :=
  ((splitOnComma specific.data).map pyStrip).filter (fun n => !n.isEmpty)

/-- `DeploymentMatrixGenerator._filter_environments` (lines 720-760) /
`generate_deployment_matrices.py` lines 97-126: with a comma, filter the
declared environments by the interpolated alternation; without one, keep the
filter name only when present verbatim. -/
def filter_environments (environments : List String) (specific : String) : List String :=
  if specific.data.contains ',' then
    environments.filter (fun env => reMatchAlt (selectedNames specific) env.data)
  else if environments.contains specific then [specific]
  else []

/-- The first `deployments` entry of a parsed deployment-config document.
Fields hold the parsed section values; a missing section behaves like its
`.get` default (`jobj []`), and a section of the wrong shape raises
`AttributeError` at the inner `.get`, as in Python.  `environments` is the
declared environment-name list (the scripts join and compare its entries as
strings). -/
structure Deployment where
  environments : List String
  parameters : JValue
  runners : JValue
  github_environments : JValue
  aws_regions : JValue
  aws_role_secrets : JValue
  cfn_role_secrets : JValue
  iam_execution_role_secrets : JValue
  github_vars : JValue

/-- Python `v.get(key, dflt)`: `AttributeError` when `v` is not a dict. -/
def jvGet (v : JValue) (key : String) (dflt : JValue) : Except PyErr JValue :=
  match v with
  | jobj fs => Except.ok ((lookupStr fs key).getD dflt)
  | _ => Except.error (.attributeError "get")

/-- One fully resolved deployment unit (the `matrix_item` dict). -/
structure MatrixItem where
  application : String
  resource : String
  environment : String
  runner : JValue
  github_environment : JValue
  aws_region : JValue
  aws_role_secret : JValue
  cfn_role_secret : JValue
  iam_role_secret : JValue
  github_vars : JValue
  secret_pass : JValue
  parameters : JValue

/-- Python `str.lower` on one character (ASCII range; the compared literal
`"true"` is ASCII). -/
def asciiLower (c : Char) : Char :=
  if 'A' ≤ c && c ≤ 'Z' then Char.ofNat (c.toNat + 32) else c

/-- `str(v).lower() == "true"` on parsed YAML values: only the string
`"true"` (case-insensitively) and the YAML boolean true qualify —
`str(True)` is `"True"`, and `str` of numbers, `None`, lists and dicts never
lowercases to `"true"`. -/
def pyStrIsTrueCI (v : JValue) : Bool :=
  match v with
  | jstr s => s.data.map asciiLower == "true".data
  | jbool b => b
  | _ => false

/-- `DeploymentMatrixGenerator._process_environment` (lines 762-824) /
`generate_deployment_matrices.py` lines 136-172: look up the per-environment
sections, apply the default role-secret names, and skip (returning `none`)
when `parameters`, `runner`, `github_environment` or `aws_region` is falsy
(absent or empty). -/
def process_environment (app resource env : String) (d : Deployment) : Except PyErr (Option MatrixItem) := do
  let params ← jvGet d.parameters env (jobj [])
  let runner ← jvGet d.runners env jnull
  let gh_env ← jvGet d.github_environments env jnull
  let aws_region ← jvGet d.aws_regions env jnull
  let aws_role_secret ← jvGet d.aws_role_secrets env (jstr "AWS_ROLE_TO_ASSUME")
  let cfn_role_secret ← jvGet d.cfn_role_secrets env (jstr "CFN_ROLE_ARN")
  let iam_role_secret ← jvGet d.iam_execution_role_secrets env (jstr "IAM_EXECUTION_ROLE_ARN")
  let vars_config ← jvGet d.github_vars env (jobj [])
  let secret_pass ← jvGet params "secret_pass" (jbool false)
  let _custom ← jvGet params "custom_deployment" (jstr "false")
  if !pyTruthy params || !pyTruthy runner || !pyTruthy gh_env || !pyTruthy aws_region then
    Except.ok none
  else
    Except.ok (some ⟨app, resource, env, runner, gh_env, aws_region, aws_role_secret,
      cfn_role_secret, iam_role_secret, vars_config, secret_pass, params⟩)

/-- The four output matrices (`dev_matrix`, `int_matrix`, `prod_matrix`,
`custom_matrix`). -/
structure Matrices where
  dev : List MatrixItem
  int : List MatrixItem
  prod : List MatrixItem
  custom : List MatrixItem

/-- Append an item to the bucket named by its environment (environments
outside `dev`/`int`/`prod` get no primary bucket). -/
def addToEnvBucket (m : Matrices) (env : String) (item : MatrixItem) : Matrices :=
  if env = "dev" then ⟨m.dev ++ [item], m.int, m.prod, m.custom⟩
  else if env = "int" then ⟨m.dev, m.int ++ [item], m.prod, m.custom⟩
  else if env = "prod" then ⟨m.dev, m.int, m.prod ++ [item], m.custom⟩
  else m

/-- Append an item to the custom matrix. -/
def addCustom (m : Matrices) (item : MatrixItem) : Matrices :=
  ⟨m.dev, m.int, m.prod, m.custom ++ [item]⟩

/-- Every item emitted into any of the four output matrices. -/
def allItems (m : Matrices) : List MatrixItem := m.dev ++ m.int ++ m.prod ++ m.custom

/-- The per-environment loop of `_process_resource_path` (lines 697-717) /
`generate_deployment_matrices.py` lines 128-184: bucket each emitted item by
environment name, and additionally into `custom` when
`parameters.custom_deployment` compares to `"true"`. -/
def envLoop (app resource : String) (d : Deployment) : List String → Matrices → Except PyErr Matrices
  | [], m => Except.ok m
  | env :: envs, m => do
      let opt ← process_environment app resource env d
      match opt with
      | none => envLoop app resource d envs m
      | some item => do
          let cd ← jvGet item.parameters "custom_deployment" (jstr "false")
          envLoop app resource d envs
            (if pyStrIsTrueCI cd then addCustom (addToEnvBucket m env item) item
             else addToEnvBucket m env item)

/-- The per-resource-path matrix construction (config loading is I/O and
happens before this point; the outer loop over resource paths concatenates
the buckets produced here).  An empty `specific` skips filtering, as the
callers guard with `if specific_environment:`. -/
def build_matrices (app resource : String) (d : Deployment) (specific : String) : Except PyErr Matrices :=
  let envs := if specific ≠ "" then filter_environments d.environments specific else d.environments
  envLoop app resource d envs ⟨[], [], [], []⟩

/-!
### The rcc variant (`cloud-formation/rcc/matrix_generator.py`)
-/

/-- Generic first-match association lookup (Python `dict.get`). -/
def alookup {α : Type} : List (String × α) → String → Option α
  | [], _ => none
  | (k, v) :: rest, key => if k == key then some v else alookup rest key

/-- `replace_secret_in_value` (lines 40-44): values of the form
`$\x7b\x7b secrets.NAME \x7d\x7d` are looked up in the environment's secret
map (`value.split('secrets.')[1].rstrip(' \x7d\x7d')` extracts `NAME`);
everything else is returned unchanged. -/
def splitSecretsDotGo : PyStr → PyStr → List PyStr
  | 's' :: 'e' :: 'c' :: 'r' :: 'e' :: 't' :: 's' :: '.' :: rest, acc =>
      acc.reverse :: splitSecretsDotGo rest []
  | c :: rest, acc => splitSecretsDotGo rest (c :: acc)
  | [], acc => [acc.reverse]

/-- Python `value.split('secrets.')`. -/
def splitSecretsDot (s : PyStr) : List PyStr := splitSecretsDotGo s []

/-- See the comment on `splitSecretsDotGo`. -/
def replace_secret_in_value (secrets : List (String × JValue)) (v : JValue) : JValue :=
  match v with
  | jstr s =>
      if startsWithList "$\x7b\x7b secrets.".data s.data then
        let chunk := (splitSecretsDot s.data).getD 1 []
        let name := String.mk ((chunk.reverse.dropWhile (fun c => c = ' ' || c = '\x7d')).reverse)
        match alookup secrets name with
        | some x => x
        | none => jstr s
      else jstr s
  | other => other

/-- `replace_secrets` (lines 38-51): map `replace_secret_in_value` over a
dict's values or a list's items; other shapes pass through. -/
def replace_secrets (params : JValue) (secrets : List (String × JValue)) : JValue :=
  match params with
  | jobj fs => jobj (fs.map (fun f => (f.1, replace_secret_in_value secrets f.2)))
  | jarr items => jarr (items.map (replace_secret_in_value secrets))
  | other => other

/-- One matrix item of the rcc variant: note the absence of any required
field validation — `runner`, `github_environment` and `aws_region` hold
whatever `.get(env)` returned, `jnull` (Python `None`) included. -/
structure RccMatrixItem where
  environment : String
  runner : JValue
  github_environment : JValue
  aws_region : JValue
  parameters : JValue

/-- The environment loop of rcc `generate_matrix` (lines 57-76): every
declared environment of every deployment yields an item, unconditionally. -/
def rccEnvLoop (d : Deployment) (all_secrets : List (String × List (String × JValue))) : List String → List RccMatrixItem → Except PyErr (List RccMatrixItem)
  | [], acc => Except.ok acc
  | env :: envs, acc => do
      let env_secrets := (alookup all_secrets env).getD []
      let env_params ← jvGet d.parameters env (jobj [])
      let resolved := replace_secrets env_params env_secrets
      let runner ← jvGet d.runners env jnull
      let gh ← jvGet d.github_environments env jnull
      let region ← jvGet d.aws_regions env jnull
      rccEnvLoop d all_secrets envs (acc ++ [⟨env, runner, gh, region, resolved⟩])

/-- rcc `generate_matrix` (lines 53-78), over the parsed `deployments`
entries of the config. -/
def generate_matrix : List Deployment → List (String × List (String × JValue)) → List RccMatrixItem → Except PyErr (List RccMatrixItem)
  | [], _, acc => Except.ok acc
  | d :: ds, all_secrets, acc => do
      let acc2 ← rccEnvLoop d all_secrets d.environments acc
      generate_matrix ds all_secrets acc2

/-- The output bucketing of rcc `main` (lines 100-105): items filtered by
environment name; every unknown environment goes to `custom_matrix`. -/
def rccBuckets (matrix : List RccMatrixItem) : List RccMatrixItem × List RccMatrixItem × List RccMatrixItem × List RccMatrixItem :=
  (matrix.filter (fun i => i.environment == "dev"),
   matrix.filter (fun i => i.environment == "int"),
   matrix.filter (fun i => i.environment == "prod"),
   matrix.filter (fun i => !(i.environment == "dev" || i.environment == "int" || i.environment == "prod")))

/-!
### Change detection

`detect-changes-action/detect_changed_applications.py`
`detect_changed_applications` (lines 72-127) and the identical
`Scripts/main.py` `ChangeDetector._detect_changed_applications` (lines
986-1044).  Acquiring the changed-file list (git subprocesses, the GitHub
API) is I/O; the embedding takes that list as an argument — every event
branch other than `workflow_dispatch` with a truthy resource path feeds its
list through the same post-processing.
-/

/-- `os.path.dirname` (posixpath): everything before the last `/`, with
trailing slashes stripped unless the head is all slashes. -/
def dirname (p : PyStr) : PyStr :=
  let base := (p.reverse.takeWhile (fun c => c != '/')).reverse
  let head := p.take (p.length - base.length)
  if head.any (fun c => c != '/') then (head.reverse.dropWhile (fun c => c = '/')).reverse
  else head

/-- The changed-file filter (line 113 / line 1030): under the root with a
YAML extension — the basename is not inspected. -/
def keepCfnFile (f : String) : Bool :=
  startsWithList "cloud-formation/".data f.data &&
  (endsWithList ".yml".data f.data || endsWithList ".yaml".data f.data)

/-- `changed_paths.add(...)`: keep one copy of each directory (insertion
order is irrelevant — the caller sorts). -/
def setAdd (acc : List PyStr) (d : PyStr) : List PyStr :=
  if acc.contains d then acc else acc ++ [d]

/-- Python `sorted` on the collected directories.  Python compares strings
by code points, lexicographically; that is exactly the lexicographic order
on `List Char`, and on duplicate-free input every correct sort produces the
same list, so an insertion sort models `sorted`. -/
def sortLex (l : List PyStr) : List PyStr := List.insertionSort (fun a b => a ≤ b) l

/-- The loop body over changed files (lines 108-115 / 1025-1032): skip empty
entries, and record the containing directory of files passing the filter. -/
def addChangedFile (acc : List PyStr) (f : String) : List PyStr :=
  if f == "" then acc else if keepCfnFile f then setAdd acc (dirname f.data) else acc

/-- Python `",".join(...)`. -/
def joinComma : List PyStr → PyStr
  | [] => []
  | [x] => x
  | x :: y :: rest => x ++ ',' :: joinComma (y :: rest)

/-- Truthiness of an optional string input (Python `None` and `""` falsy). -/
def truthyOptStr : Option String → Bool
  | none => false
  | some s => s != ""

/-- `detect_changed_applications` as a function of the event data and the
changed-file list: the `workflow_dispatch` branch with its prefix check, and
the shared post-processing (skip empty entries, filter with `keepCfnFile`,
collect containing directories into a set, sort, comma-join). -/
def detect_changed_applications (event_name : String) (resource_path app_name : Option String) (changed_files : List String) : String :=
  if event_name == "workflow_dispatch" && truthyOptStr resource_path then
    let rp := resource_path.getD ""
    if truthyOptStr app_name then
      let expected := "cloud-formation/" ++ app_name.getD "" ++ "/"
      if startsWithList expected.data rp.data then rp else ""
    else rp
  else
    String.mk (joinComma (sortLex (changed_files.foldl addChangedFile [])))

/-- The changed-file filter as claim C6 words it (spec side, for comparison
with `keepCfnFile` only): the file must lie under the root and its basename
must be a deployment-config filename. -/
def specDetectKeepFile (f : String) : Bool :=
  startsWithList "cloud-formation/".data f.data &&
  (String.mk ((f.data.reverse.takeWhile (fun c => c != '/')).reverse) == "deployment-config.yml" ||
   String.mk ((f.data.reverse.takeWhile (fun c => c != '/')).reverse) == "deployment-config.yaml")

/-!
### Concrete inputs used by the counterexample and witness theorems
-/

/-- A JSON tag list defining `K` with value `v2`. -/
def jsonTagEx : JsonSrc := .parsed (jarr [mkTagS "K" "v2"])

/-- An inline parameter source repeating the very same record for key `K`. -/
def inlineDupEx : JsonSrc :=
  .parsed (jarr [jobj [("ParameterKey", jstr "K"), ("ParameterValue", jstr "c")],
                 jobj [("ParameterKey", jstr "K"), ("ParameterValue", jstr "c")]])

/-- A record with the resolvable placeholder `SECRET:A` as its value. -/
def recK1 : JValue := jobj [("ParameterKey", jstr "K1"), ("ParameterValue", jstr "SECRET:A")]

/-- A record whose value contains `SECRET:` away from the start. -/
def recK2 : JValue := jobj [("ParameterKey", jstr "K2"), ("ParameterValue", jstr "x-SECRET:A")]

/-- A file parameter list with one resolvable `SECRET:A` placeholder and one
value containing `SECRET:` away from the start. -/
def fileParamsEx : JValue := jarr [recK1, recK2]

/-- A parsed deployment whose `runners` section omits the declared `dev`
environment while the other required sections are present. -/
def deploymentNoRunnerEx : Deployment :=
  ⟨["dev"], jobj [("dev", jobj [("a", jstr "b")])], jobj [],
   jobj [("dev", jstr "ghe")], jobj [("dev", jstr "eu-west-1")],
   jobj [], jobj [], jobj [], jobj []⟩

/-- A fully populated two-environment deployment (the spec's end-to-end
scenario, with `custom_deployment` set for `prod`). -/
def deploymentFullEx : Deployment :=
  ⟨["dev", "prod"],
   jobj [("dev", jobj [("a", jstr "b")]), ("prod", jobj [("custom_deployment", jstr "TRUE")])],
   jobj [("dev", jstr "ubuntu-latest"), ("prod", jstr "self-hosted")],
   jobj [("dev", jstr "ghe-dev"), ("prod", jstr "ghe-prod")],
   jobj [("dev", jstr "eu-west-1"), ("prod", jstr "eu-central-1")],
   jobj [], jobj [], jobj [], jobj []⟩

/-- The item `deploymentFullEx` produces for `dev`. -/
def devItemEx : MatrixItem :=
  ⟨"app", "res", "dev", jstr "ubuntu-latest", jstr "ghe-dev", jstr "eu-west-1",
   jstr "AWS_ROLE_TO_ASSUME", jstr "CFN_ROLE_ARN", jstr "IAM_EXECUTION_ROLE_ARN",
   jobj [], jbool false, jobj [("a", jstr "b")]⟩

/-- The item `deploymentFullEx` produces for `prod`. -/
def prodItemEx : MatrixItem :=
  ⟨"app", "res", "prod", jstr "self-hosted", jstr "ghe-prod", jstr "eu-central-1",
   jstr "AWS_ROLE_TO_ASSUME", jstr "CFN_ROLE_ARN", jstr "IAM_EXECUTION_ROLE_ARN",
   jobj [], jbool false, jobj [("custom_deployment", jstr "TRUE")]⟩

/-!
### Theorems
-/

/-- C1, counterexample: in `cfn-deploy/process-tags.py` the working list is
built from the key=value source first and the JSON source is merged second,
so for a key defined in both sources the JSON value wins — with
`K=v1` as the key=value source and `[{"Key": "K", "Value": "v2"}]` as the
JSON source, the merge returns value `v2`, not the key=value source's `v1`. -/
theorem processTagsMain_json_overrides_kv :
    ∃ ts, processTagsMain "K=v1" jsonTagEx = Except.ok (0, some ts) ∧
      ts.map (fun t => getField t "Value") = [some (jstr "v2")] ∧ "v2" ≠ "v1" :=
  ⟨[mkTagS "K" "v2"], rfl, rfl, by decide⟩

/-- C2, counterexample: rcc `generate_matrix` performs no required-field
validation — on a config whose `runners` section omits the declared `dev`
environment it still emits a MatrixItem (with `runner` = `None`), and rcc
`main` places that item into the `dev` output matrix. -/
theorem generate_matrix_emits_missing_runner :
    ∃ item, generate_matrix [deploymentNoRunnerEx] [] [] = Except.ok [item] ∧
      item.runner = jnull ∧ item.environment = "dev" ∧
      (rccBuckets [item]).1 = [item] :=
  ⟨⟨"dev", jnull, jstr "ghe", jstr "eu-west-1", jobj [("a", jstr "b")]⟩, rfl, rfl, rfl, rfl⟩

/-- C3, counterexample: the inline merge loop never registers appended keys
in its `existing_params` index, so an inline list repeating key `K` yields
two records for `K`, not one. -/
theorem inline_repeated_key_duplicates :
    ∃ out, process_inline_parameters inlineDupEx [] [] = Except.ok out ∧
      paramKeysOf out = ["K", "K"] ∧ (out.filter (paramKeyIs "K")).length = 2 :=
  ⟨_, rfl, rfl, rfl⟩

/-- C4, counterexample: the filter names are interpolated into the regex
unescaped, so the filter string `d.v,prod` selects the declared environment
`dev` although `dev` is not literally equal to any filter alternative. -/
theorem filter_environments_regex_not_literal :
    filter_environments ["dev", "int"] "d.v,prod" = ["dev"] ∧
    selectedNames "d.v,prod" = ["d.v".data, "prod".data] ∧
    ("dev" : String).data ∉ selectedNames "d.v,prod" :=
  ⟨rfl, rfl, by decide⟩

/-- C5, counterexample: with a parameter list containing the resolvable
placeholder `SECRET:A` (and `A` present in the secret map), the returned
list still contains an element whose value contains the literal substring
`SECRET:`, because the value `x-SECRET:A` does not start with the prefix and
is left unchanged. -/
theorem merge_output_retains_secret_substring :
    ∃ out, process_file_parameters fileParamsEx [("A", "val")] = Except.ok out ∧
      out.map (fun p => getField p "ParameterValue") =
        [some (jstr "val"), some (jstr "x-SECRET:A")] ∧
      lookupSecret [("A", "val")] "A" = some "val" ∧
      isSubstr "SECRET:".data "x-SECRET:A".data = true :=
  ⟨_, rfl, rfl, rfl, rfl⟩

/-- C6, counterexample: the change filter keeps any `.yml`/`.yaml` file
under `cloud-formation/`, so a changed file whose basename is not a
deployment-config filename still contributes its directory, against the
claim's filter. -/
theorem detect_keeps_non_config_yaml :
    detect_changed_applications "push" none none ["cloud-formation/a/b/template.yml"] =
      "cloud-formation/a/b" ∧
    specDetectKeepFile "cloud-formation/a/b/template.yml" = false ∧
    keepCfnFile "cloud-formation/a/b/template.yml" = true :=
  ⟨rfl, rfl, rfl⟩

/-- C7, counterexample: the quote-stripping regex accepts any pair of quote
characters, matching or not — the line `FOO="bar'` yields the value `bar`
with its mismatched quotes stripped, not the unchanged `"bar'`. -/
theorem kv_line_strips_mismatched_quotes :
    ∃ ts, tagProcessorExecute .absent "FOO=\"bar'" = Except.ok (0, some ts) ∧
      ts = [mkTagS "FOO" "bar"] ∧ "bar" ≠ "\"bar'" :=
  ⟨_, rfl, rfl, by decide⟩

/-- C10: a syntactically valid JSON tag input whose top level is not a list
of `Key`-carrying objects crashes the tag merge — `[1]` raises `TypeError`
in `process-tags.py` (subscripting the int), a bare `5` raises `TypeError`
in `TagProcessor._process_json_tags` (`len`), while a malformed input
(`json.JSONDecodeError`) is the only failure that is caught and skipped. -/
theorem json_tags_non_list_crashes :
    (∃ msg, processTagsMain "" (.parsed (jarr [jnum 1])) = Except.error (.typeError msg)) ∧
    (∃ msg, tagProcessorExecute (.parsed (jnum 5)) "" = Except.error (.typeError msg)) ∧
    processTagsMain "" .malformed = Except.ok (1, none) ∧
    tagProcessorExecute .malformed "" = Except.ok (1, none) :=
  ⟨⟨_, rfl⟩, ⟨_, rfl⟩, rfl, rfl⟩

/-! Helper lemmas. -/

/-- Bind on a successful `Except` computation. -/
theorem exceptBindOk {ε α β : Type} (a : α) (f : α → Except ε β) :
    (Except.ok a : Except ε α) >>= f = f a := rfl

/-- Bind on a failed `Except` computation. -/
theorem exceptBindErr {ε α β : Type} (e : ε) (f : α → Except ε β) :
    (Except.error e : Except ε α) >>= f = Except.error e := rfl

/-- A successful `mapExcept` run applies `f` elementwise. -/
theorem mapExcept_ok_get {α β : Type} {f : α → Except PyErr β} :
    ∀ {xs : List α} {ys : List β}, mapExcept f xs = Except.ok ys →
      ∀ (i : Nat) (x : α), xs[i]? = some x → ∃ y, f x = Except.ok y ∧ ys[i]? = some y := by
  intro xs
  induction xs with
  | nil => intro ys h i x hx; simp at hx
  | cons a as ih =>
      intro ys h i x hx
      cases hfa : f a with
      | error e => rw [mapExcept, hfa, exceptBindErr] at h; exact absurd h (by simp)
      | ok y =>
          cases hms : mapExcept f as with
          | error e =>
              rw [mapExcept, hfa, exceptBindOk, hms, exceptBindErr] at h
              exact absurd h (by simp)
          | ok ys2 =>
              rw [mapExcept, hfa, exceptBindOk, hms, exceptBindOk] at h
              have hys : y :: ys2 = ys := by simpa using h
              subst hys
              cases i with
              | zero =>
                  simp only [List.getElem?_cons_zero, Option.some.injEq] at hx
                  subst hx
                  exact ⟨y, hfa, by simp⟩
              | succ n =>
                  obtain ⟨y2, hf2, hy2⟩ := ih hms n x (by simpa using hx)
                  exact ⟨y2, hf2, by simpa using hy2⟩

/-- A prefix matches itself followed by anything. -/
theorem startsWithList_append_self : ∀ (pre l : PyStr), startsWithList pre (pre ++ l) = true := by
  intro pre
  induction pre with
  | nil => intro l; rfl
  | cons c cs ih => intro l; simp [startsWithList, ih l]

/-- `stripSecretAllGo` ignores the exact fuel once it covers the length. -/
theorem stripSecretAllGo_congr : ∀ (n : Nat) (l : PyStr) (m : Nat),
    l.length ≤ n → l.length ≤ m → stripSecretAllGo n l = stripSecretAllGo m l := by
  intro n
  induction n with
  | zero =>
      intro l m hn _
      have : l = [] := List.eq_nil_of_length_eq_zero (Nat.le_zero.mp hn)
      subst this
      cases m <;> rfl
  | succ n ih =>
      intro l m hn hm
      cases l with
      | nil => cases m <;> rfl
      | cons c rest =>
          cases m with
          | zero => simp at hm
          | succ m2 =>
              have hrn : rest.length ≤ n := by simp at hn; omega
              have hrm : rest.length ≤ m2 := by simp at hm; omega
              have hdn : (rest.drop 6).length ≤ n := by simp [List.length_drop]; omega
              have hdm : (rest.drop 6).length ≤ m2 := by simp [List.length_drop]; omega
              show (if startsWithList "SECRET:".data (c :: rest) then stripSecretAllGo n (rest.drop 6)
                    else c :: stripSecretAllGo n rest) =
                   (if startsWithList "SECRET:".data (c :: rest) then stripSecretAllGo m2 (rest.drop 6)
                    else c :: stripSecretAllGo m2 rest)
              by_cases hsw : startsWithList "SECRET:".data (c :: rest) = true
              · rw [if_pos hsw, if_pos hsw]
                exact ih (rest.drop 6) m2 hdn hdm
              · rw [if_neg hsw, if_neg hsw]
                exact congrArg (c :: ·) (ih rest m2 hrn hrm)

/-- Removing the leading `SECRET:` occurrence. -/
theorem stripSecretAll_front (l : PyStr) :
    stripSecretAll ("SECRET:".data ++ l) = stripSecretAll l := by
  have hsw : startsWithList "SECRET:".data ('S' :: ("ECRET:".data ++ l)) = true :=
    startsWithList_append_self "SECRET:".data l
  have h7 : ("SECRET:".data).length = 7 := rfl
  have hlen : ("SECRET:".data ++ l).length = l.length + 6 + 1 := by
    rw [List.length_append, h7]; omega
  show stripSecretAllGo ("SECRET:".data ++ l).length ("SECRET:".data ++ l) = _
  rw [hlen]
  show (if startsWithList "SECRET:".data ('S' :: ("ECRET:".data ++ l)) then
          stripSecretAllGo (l.length + 6) (("ECRET:".data ++ l).drop 6)
        else 'S' :: stripSecretAllGo (l.length + 6) ("ECRET:".data ++ l)) = _
  rw [if_pos hsw]
  have hdrop : ("ECRET:".data ++ l).drop 6 = l := rfl
  rw [hdrop]
  exact stripSecretAllGo_congr (l.length + 6) l l.length (by omega) (le_refl _)

/-- A string without any `SECRET:` occurrence is left unchanged. -/
theorem stripSecretAll_no_occ : ∀ (l : PyStr), isSubstr "SECRET:".data l = false →
    stripSecretAll l = l := by
  intro l
  induction l with
  | nil => intro _; rfl
  | cons c cs ih =>
      intro h
      rw [isSubstr, Bool.or_eq_false_iff] at h
      show stripSecretAllGo (cs.length + 1) (c :: cs) = _
      rw [stripSecretAllGo, if_neg (by rw [h.1]; exact Bool.false_ne_true)]
      exact congrArg (c :: ·) (ih h.2)

/-- `setFieldList` sets the requested field. -/
theorem lookupStr_setFieldList_self : ∀ (fs : List (String × JValue)) (k : String) (v : JValue),
    lookupStr (setFieldList fs k v) k = some v := by
  intro fs k v
  induction fs with
  | nil => simp [setFieldList, lookupStr]
  | cons f fs ih =>
      obtain ⟨fk, fv⟩ := f
      by_cases h : fk = k
      · subst h; simp [setFieldList, lookupStr]
      · simp [setFieldList, lookupStr, h, ih]

/-- `setFieldList` leaves other fields alone. -/
theorem lookupStr_setFieldList_other : ∀ (fs : List (String × JValue)) (k k2 : String) (v : JValue),
    k2 ≠ k → lookupStr (setFieldList fs k v) k2 = lookupStr fs k2 := by
  intro fs k k2 v hne
  have hne2 : (k == k2) = false := by simp; exact fun h => hne h.symm
  induction fs with
  | nil => simp [setFieldList, lookupStr, hne2]
  | cons f fs ih =>
      obtain ⟨fk, fv⟩ := f
      by_cases h : fk = k
      · subst h; simp [setFieldList, lookupStr, hne2]
      · by_cases h2 : fk = k2
        · subst h2; simp [setFieldList, lookupStr, h]
        · simp [setFieldList, lookupStr, h, h2, ih]

/-- A field lookup that succeeds forces the value to be an object. -/
theorem getField_some {p : JValue} {k : String} {x : JValue} (h : getField p k = some x) :
    ∃ fs, p = jobj fs ∧ lookupStr fs k = some x := by
  cases p with
  | jobj fs => exact ⟨fs, rfl, h⟩
  | jnull => exact absurd h (by simp [getField])
  | jbool b => exact absurd h (by simp [getField])
  | jnum n => exact absurd h (by simp [getField])
  | jstr s => exact absurd h (by simp [getField])
  | jarr items => exact absurd h (by simp [getField])

/-- C9: secret placeholder resolution triggers only on values that start
with `SECRET:` — a record whose string value does not start with that prefix
passes through the file-parameter processing completely unchanged, whatever
the secret map contains (`_process_file_parameters` tests
`param["ParameterValue"].startswith("SECRET:")`, and all four variants use
the same guard). -/
theorem secret_resolution_prefix_only
    (ps : List JValue) (secrets : List (String × String)) (out : List JValue)
    (hout : process_file_parameters (jarr ps) secrets = Except.ok out)
    (i : Nat) (p : JValue) (v : String)
    (hp : ps[i]? = some p)
    (hv : getField p "ParameterValue" = some (jstr v))
    (hnpre : startsWithList "SECRET:".data v.data = false) :
    out[i]? = some p := by
  have hps : ps ≠ [] := by intro h; subst h; simp at hp
  have htr : pyTruthy (jarr ps) = true := by
    simp [pyTruthy]
    simpa [List.isEmpty_iff] using hps
  rw [process_file_parameters, htr] at hout
  simp only [Bool.not_true, Bool.false_eq_true, if_false] at hout
  obtain ⟨y, hfy, hy⟩ := mapExcept_ok_get hout i p hp
  obtain ⟨fs, rfl, hlk⟩ := getField_some hv
  simp only [substFileParam, hlk, hnpre, Bool.false_eq_true, if_false] at hfy
  have : jobj fs = y := by simpa using hfy
  rw [← this] at hy
  exact hy

/-- Witness for `secret_resolution_prefix_only` at the concrete input
`fileParamsEx` with secret map `A ↦ val`. -/
theorem secret_resolution_prefix_only_witness :
    ∃ out, process_file_parameters fileParamsEx [("A", "val")] = Except.ok out ∧
      out[1]? = some recK2 :=
  ⟨[jobj [("ParameterKey", jstr "K1"), ("ParameterValue", jstr "val")], recK2], rfl,
    secret_resolution_prefix_only [recK1, recK2] [("A", "val")] _ rfl 1 recK2 "x-SECRET:A" rfl rfl rfl⟩

/-- C5, amended: a record whose value is exactly `SECRET:<name>` (with
`<name>` free of further `SECRET:` occurrences) and whose `<name>` is in the
secret map comes out of the file-parameter processing with the secret's
value in place of the placeholder, its key untouched; values that merely
contain `SECRET:` elsewhere are left as they are (see
`secret_resolution_prefix_only`), so the full output may still contain the
substring. -/
theorem resolvable_prefix_placeholder_replaced
    (ps : List JValue) (secrets : List (String × String)) (out : List JValue)
    (hout : process_file_parameters (jarr ps) secrets = Except.ok out)
    (i : Nat) (p : JValue) (name : PyStr) (sec : String)
    (hp : ps[i]? = some p)
    (hv : getField p "ParameterValue" = some (jstr (String.mk ("SECRET:".data ++ name))))
    (hns : isSubstr "SECRET:".data name = false)
    (hsec : lookupSecret secrets (String.mk name) = some sec) :
    ∃ q, out[i]? = some q ∧ getField q "ParameterValue" = some (jstr sec) ∧
      getField q "ParameterKey" = getField p "ParameterKey" := by
  have hps : ps ≠ [] := by intro h; subst h; simp at hp
  have htr : pyTruthy (jarr ps) = true := by
    simp [pyTruthy]
    simpa [List.isEmpty_iff] using hps
  rw [process_file_parameters, htr] at hout
  simp only [Bool.not_true, Bool.false_eq_true, if_false] at hout
  obtain ⟨y, hfy, hy⟩ := mapExcept_ok_get hout i p hp
  obtain ⟨fs, rfl, hlk⟩ := getField_some hv
  have hstart : startsWithList "SECRET:".data (String.mk ("SECRET:".data ++ name)).data = true :=
    startsWithList_append_self _ _
  have hstrip : stripSecretAll (String.mk ("SECRET:".data ++ name)).data = name := by
    show stripSecretAll ("SECRET:".data ++ name) = name
    rw [stripSecretAll_front, stripSecretAll_no_occ name hns]
  simp only [substFileParam, hlk, hstart, if_true, hstrip, hsec] at hfy
  have hres : jobj (setFieldList fs "ParameterValue" (jstr sec)) = y := by simpa using hfy
  refine ⟨jobj (setFieldList fs "ParameterValue" (jstr sec)), by rw [hres]; exact hy, ?_, ?_⟩
  · show lookupStr (setFieldList fs "ParameterValue" (jstr sec)) "ParameterValue" = some (jstr sec)
    exact lookupStr_setFieldList_self fs _ _
  · show lookupStr (setFieldList fs "ParameterValue" (jstr sec)) "ParameterKey" = lookupStr fs "ParameterKey"
    exact lookupStr_setFieldList_other fs _ _ _ (by decide)

/-- Witness for `resolvable_prefix_placeholder_replaced` at the concrete
input `fileParamsEx` with secret map `A ↦ val`. -/
theorem resolvable_prefix_placeholder_replaced_witness :
    ∃ out, process_file_parameters fileParamsEx [("A", "val")] = Except.ok out ∧
      ∃ q, out[0]? = some q ∧ getField q "ParameterValue" = some (jstr "val") ∧
        getField q "ParameterKey" = getField recK1 "ParameterKey" :=
  ⟨_, rfl,
    resolvable_prefix_placeholder_replaced [recK1, recK2] [("A", "val")] _ rfl 0 recK1
      "A".data "val" rfl rfl rfl rfl⟩

/-- An emitted MatrixItem satisfies the required-field validation: the skip
in `_process_environment` fires unless `parameters`, `runner`,
`github_environment` and `aws_region` are all truthy. -/
theorem process_environment_some
    (app resource env : String) (d : Deployment) (item : MatrixItem)
    (h : process_environment app resource env d = Except.ok (some item)) :
    pyTruthy item.parameters = true ∧ pyTruthy item.runner = true ∧
    pyTruthy item.github_environment = true ∧ pyTruthy item.aws_region = true := by
  rw [process_environment] at h
  cases h1 : jvGet d.parameters env (jobj []) with
  | error e => rw [h1, exceptBindErr] at h; exact absurd h (by simp)
  | ok params =>
  rw [h1, exceptBindOk] at h
  cases h2 : jvGet d.runners env jnull with
  | error e => rw [h2, exceptBindErr] at h; exact absurd h (by simp)
  | ok runner =>
  rw [h2, exceptBindOk] at h
  cases h3 : jvGet d.github_environments env jnull with
  | error e => rw [h3, exceptBindErr] at h; exact absurd h (by simp)
  | ok gh_env =>
  rw [h3, exceptBindOk] at h
  cases h4 : jvGet d.aws_regions env jnull with
  | error e => rw [h4, exceptBindErr] at h; exact absurd h (by simp)
  | ok aws_region =>
  rw [h4, exceptBindOk] at h
  cases h5 : jvGet d.aws_role_secrets env (jstr "AWS_ROLE_TO_ASSUME") with
  | error e => rw [h5, exceptBindErr] at h; exact absurd h (by simp)
  | ok aws_role =>
  rw [h5, exceptBindOk] at h
  cases h6 : jvGet d.cfn_role_secrets env (jstr "CFN_ROLE_ARN") with
  | error e => rw [h6, exceptBindErr] at h; exact absurd h (by simp)
  | ok cfn_role =>
  rw [h6, exceptBindOk] at h
  cases h7 : jvGet d.iam_execution_role_secrets env (jstr "IAM_EXECUTION_ROLE_ARN") with
  | error e => rw [h7, exceptBindErr] at h; exact absurd h (by simp)
  | ok iam_role =>
  rw [h7, exceptBindOk] at h
  cases h8 : jvGet d.github_vars env (jobj []) with
  | error e => rw [h8, exceptBindErr] at h; exact absurd h (by simp)
  | ok vars_config =>
  rw [h8, exceptBindOk] at h
  cases h9 : jvGet params "secret_pass" (jbool false) with
  | error e => rw [h9, exceptBindErr] at h; exact absurd h (by simp)
  | ok secret_pass =>
  rw [h9, exceptBindOk] at h
  cases h10 : jvGet params "custom_deployment" (jstr "false") with
  | error e => rw [h10, exceptBindErr] at h; exact absurd h (by simp)
  | ok custom =>
  rw [h10, exceptBindOk] at h
  by_cases hc : (!pyTruthy params || !pyTruthy runner || !pyTruthy gh_env || !pyTruthy aws_region) = true
  · rw [if_pos hc] at h
    exact absurd h (by simp)
  · rw [if_neg hc] at h
    have hitem : (⟨app, resource, env, runner, gh_env, aws_region, aws_role, cfn_role,
        iam_role, vars_config, secret_pass, params⟩ : MatrixItem) = item := by
      simpa using h
    have hfalse : (!pyTruthy params || !pyTruthy runner || !pyTruthy gh_env || !pyTruthy aws_region) = false :=
      Bool.eq_false_iff.mpr hc
    simp only [Bool.or_eq_false_iff, Bool.not_eq_false'] at hfalse
    have hall : pyTruthy params = true ∧ pyTruthy runner = true ∧
        pyTruthy gh_env = true ∧ pyTruthy aws_region = true := by tauto
    rw [← hitem]
    exact hall

/-- Adding an item to its environment bucket adds nothing else. -/
theorem allItems_addToEnvBucket (m : Matrices) (env : String) (item x : MatrixItem)
    (hx : x ∈ allItems (addToEnvBucket m env item)) : x ∈ allItems m ∨ x = item := by
  by_cases h1 : env = "dev"
  · simp only [addToEnvBucket, if_pos h1, allItems, List.mem_append, List.mem_singleton] at hx ⊢
    tauto
  by_cases h2 : env = "int"
  · simp only [addToEnvBucket, if_neg h1, if_pos h2, allItems, List.mem_append, List.mem_singleton] at hx ⊢
    tauto
  by_cases h3 : env = "prod"
  · simp only [addToEnvBucket, if_neg h1, if_neg h2, if_pos h3, allItems, List.mem_append, List.mem_singleton] at hx ⊢
    tauto
  · simp only [addToEnvBucket, if_neg h1, if_neg h2, if_neg h3] at hx
    exact Or.inl hx

/-- Adding an item to the custom bucket adds nothing else. -/
theorem allItems_addCustom (m : Matrices) (item x : MatrixItem)
    (hx : x ∈ allItems (addCustom m item)) : x ∈ allItems m ∨ x = item := by
  simp only [addCustom, allItems, List.mem_append, List.mem_singleton] at hx ⊢
  tauto

/-- `envLoop` only ever appends items that passed the validation. -/
theorem envLoop_required_fields
    (app resource : String) (d : Deployment) :
    ∀ (envs : List String) (m0 m : Matrices),
      envLoop app resource d envs m0 = Except.ok m →
      (∀ x ∈ allItems m0, pyTruthy x.parameters = true ∧ pyTruthy x.runner = true ∧
        pyTruthy x.github_environment = true ∧ pyTruthy x.aws_region = true) →
      ∀ x ∈ allItems m, pyTruthy x.parameters = true ∧ pyTruthy x.runner = true ∧
        pyTruthy x.github_environment = true ∧ pyTruthy x.aws_region = true := by
  intro envs
  induction envs with
  | nil =>
      intro m0 m h hm0
      have : m0 = m := by simpa [envLoop] using h
      rw [← this]
      exact hm0
  | cons env envs ih =>
      intro m0 m h hm0
      rw [envLoop] at h
      cases hpe : process_environment app resource env d with
      | error e => rw [hpe, exceptBindErr] at h; exact absurd h (by simp)
      | ok opt =>
      rw [hpe, exceptBindOk] at h
      cases opt with
      | none => exact ih m0 m h hm0
      | some item =>
          have hP := process_environment_some app resource env d item hpe
          dsimp only at h
          cases hcd : jvGet item.parameters "custom_deployment" (jstr "false") with
          | error e => rw [hcd, exceptBindErr] at h; exact absurd h (by simp)
          | ok cd =>
          rw [hcd, exceptBindOk] at h
          by_cases hct : pyStrIsTrueCI cd = true
          · rw [if_pos hct] at h
            refine ih _ m h ?_
            intro x hx
            rcases allItems_addCustom _ _ _ hx with hx2 | rfl
            · rcases allItems_addToEnvBucket m0 env item x hx2 with hx3 | rfl
              · exact hm0 x hx3
              · exact hP
            · exact hP
          · rw [if_neg hct] at h
            refine ih _ m h ?_
            intro x hx
            rcases allItems_addToEnvBucket m0 env item x hx with hx3 | rfl
            · exact hm0 x hx3
            · exact hP


/-- C2, amended (scoped to the two validating variants,
`generate_deployment_matrices.py` and `DeploymentMatrixGenerator`): every
MatrixItem these emit into any output matrix has truthy (present and
non-empty) `parameters`, `runner`, `github_environment` and `aws_region`;
the rcc variant performs no such validation and can emit an item with a
`None` runner (see `generate_matrix_emits_missing_runner`). -/
theorem build_matrices_required_fields
    (app resource : String) (d : Deployment) (specific : String) (m : Matrices)
    (hm : build_matrices app resource d specific = Except.ok m)
    (item : MatrixItem) (hitem : item ∈ allItems m) :
    pyTruthy item.parameters = true ∧ pyTruthy item.runner = true ∧
    pyTruthy item.github_environment = true ∧ pyTruthy item.aws_region = true := by
  rw [build_matrices] at hm
  exact envLoop_required_fields app resource d _ _ m hm (by intro x hx; simp [allItems] at hx) item hitem

/-- Witness for `build_matrices_required_fields` on the fully populated
two-environment deployment. -/
theorem build_matrices_required_fields_witness :
    build_matrices "app" "res" deploymentFullEx "" =
      Except.ok ⟨[devItemEx], [], [prodItemEx], [prodItemEx]⟩ ∧
    (pyTruthy devItemEx.parameters = true ∧ pyTruthy devItemEx.runner = true ∧
     pyTruthy devItemEx.github_environment = true ∧ pyTruthy devItemEx.aws_region = true) :=
  ⟨rfl,
    build_matrices_required_fields "app" "res" deploymentFullEx ""
      ⟨[devItemEx], [], [prodItemEx], [prodItemEx]⟩ rfl devItemEx
      (by simp [allItems])⟩

/-- For a metacharacter-free alternative, regex matching is literal
equality. -/
theorem dotMatch_no_meta : ∀ (n cand : PyStr), (∀ c ∈ n, isReMeta c = false) →
    (dotMatch n cand = true ↔ n = cand) := by
  intro n
  induction n with
  | nil =>
      intro cand _
      cases cand with
      | nil => simp [dotMatch]
      | cons c cs => simp [dotMatch]
  | cons p ps ih =>
      intro cand hm
      cases cand with
      | nil => simp [dotMatch]
      | cons c cs =>
          have hpd : (p == '.') = false := by
            have := hm p (by simp)
            simp only [isReMeta] at this
            simp only [beq_eq_false_iff_ne, ne_eq]
            intro hcon
            rw [hcon] at this
            simp at this
          have hrest := ih cs (fun x hx => hm x (by simp [hx]))
          simp only [dotMatch, hpd, Bool.false_and, Bool.or_false, Bool.and_eq_true,
            beq_iff_eq, List.cons.injEq]
          constructor
          · rintro ⟨rfl, h2⟩; exact ⟨rfl, hrest.mp h2⟩
          · rintro ⟨rfl, h2⟩; exact ⟨rfl, hrest.mpr h2⟩

/-- Boolean form of `dotMatch_no_meta`. -/
theorem dotMatch_eq_beq (n cand : PyStr) (hm : ∀ c ∈ n, isReMeta c = false) :
    dotMatch n cand = (n == cand) := by
  cases hd : dotMatch n cand
  · have : ¬n = cand := fun h => by
      rw [(dotMatch_no_meta n cand hm).mpr h] at hd
      exact absurd hd (by simp)
    simp [this]
  · have h := (dotMatch_no_meta n cand hm).mp hd
    simp [h]

/-- With metacharacter-free names and a candidate not ending in a newline,
the interpolated alternation accepts exactly the listed names. -/
theorem reMatchAlt_no_meta (names : List PyStr) (cand : PyStr)
    (hm : ∀ n ∈ names, ∀ c ∈ n, isReMeta c = false)
    (hnl : cand.getLast? ≠ some '\n') :
    reMatchAlt names cand = names.contains cand := by
  have hnlb : (cand.getLast? == some '\n') = false := by
    simp only [beq_eq_false_iff_ne, ne_eq]
    exact hnl
  induction names with
  | nil => rfl
  | cons n ns ih =>
      have hn := hm n (by simp)
      have hns : ∀ x ∈ ns, ∀ c ∈ x, isReMeta c = false := fun x hx => hm x (by simp [hx])
      simp only [reMatchAlt, List.any_cons, hnlb, Bool.false_and, Bool.or_false,
        List.contains_cons]
      rw [dotMatch_eq_beq n cand hn]
      have ih2 := ih hns
      simp only [reMatchAlt, hnlb, Bool.false_and, Bool.or_false] at ih2
      rw [ih2]
      rw [Bool.beq_comm]

/-- C4, amended: for a comma-containing filter whose trimmed names are free
of regex metacharacters, and declared names not ending in a newline, the
environment filter returns exactly the declared entries literally equal to
some filter name, in declared order (hence never a name outside the declared
list).  Unescaped metacharacters in a filter name widen the match beyond
literal equality (see `filter_environments_regex_not_literal`). -/
theorem filter_environments_exact
    (environments : List String) (specific : String)
    (hcomma : specific.data.contains ',' = true)
    (hm : ∀ n ∈ selectedNames specific, ∀ c ∈ n, isReMeta c = false)
    (hnl : ∀ e ∈ environments, e.data.getLast? ≠ some '\n') :
    filter_environments environments specific =
      environments.filter (fun e => (selectedNames specific).contains e.data) ∧
    ∀ e ∈ filter_environments environments specific, e ∈ environments := by
  have hfe : filter_environments environments specific =
      environments.filter (fun env => reMatchAlt (selectedNames specific) env.data) := by
    rw [filter_environments, if_pos hcomma]
  constructor
  · rw [hfe]
    exact List.filter_congr (fun e he => reMatchAlt_no_meta _ _ hm (hnl e he))
  · intro e he
    rw [hfe] at he
    exact List.mem_of_mem_filter he

/-- Witness for `filter_environments_exact`: the filter `prod, dev` against
declared `dev, int, prod` selects exactly `dev, prod` in declared order. -/
theorem filter_environments_exact_witness :
    filter_environments ["dev", "int", "prod"] "prod, dev" = ["dev", "prod"] := by
  rw [(filter_environments_exact ["dev", "int", "prod"] "prod, dev" rfl (by decide) (by decide)).1]
  rfl

/-- Membership after a set insertion. -/
theorem setAdd_mem (acc : List PyStr) (d x : PyStr) :
    x ∈ setAdd acc d ↔ x ∈ acc ∨ x = d := by
  by_cases h : acc.contains d = true
  · rw [setAdd, if_pos h]
    constructor
    · exact Or.inl
    · rintro (hx | rfl)
      · exact hx
      · exact List.mem_of_elem_eq_true h
  · rw [setAdd, if_neg h]
    simp

/-- Set insertion keeps the collected list duplicate-free. -/
theorem setAdd_nodup (acc : List PyStr) (d : PyStr) (h : acc.Nodup) :
    (setAdd acc d).Nodup := by
  by_cases hc : acc.contains d = true
  · rw [setAdd, if_pos hc]; exact h
  · rw [setAdd, if_neg hc]
    refine List.Nodup.append h (List.nodup_singleton d) ?_
    intro x hx hd
    rw [List.mem_singleton] at hd
    subst hd
    exact hc (List.elem_eq_true_of_mem hx)

/-- Membership after one loop step. -/
theorem addChangedFile_mem (acc : List PyStr) (f : String) (x : PyStr) :
    x ∈ addChangedFile acc f ↔
      x ∈ acc ∨ (f ≠ "" ∧ keepCfnFile f = true ∧ dirname f.data = x) := by
  by_cases h1 : f = ""
  · subst h1
    simp [addChangedFile]
  · rw [addChangedFile, if_neg (by simpa using h1)]
    by_cases h2 : keepCfnFile f = true
    · rw [if_pos h2, setAdd_mem]
      constructor
      · rintro (hx | rfl)
        · exact Or.inl hx
        · exact Or.inr ⟨h1, h2, rfl⟩
      · rintro (hx | ⟨_, _, rfl⟩)
        · exact Or.inl hx
        · exact Or.inr rfl
    · rw [if_neg h2]
      constructor
      · exact Or.inl
      · rintro (hx | ⟨_, hk, _⟩)
        · exact hx
        · exact absurd hk h2

/-- Membership in the collected-directory fold. -/
theorem detectFold_mem : ∀ (files : List String) (acc : List PyStr) (x : PyStr),
    x ∈ files.foldl addChangedFile acc ↔
      x ∈ acc ∨ ∃ f, f ∈ files ∧ f ≠ "" ∧ keepCfnFile f = true ∧ dirname f.data = x := by
  intro files
  induction files with
  | nil => intro acc x; simp
  | cons f fs ih =>
      intro acc x
      rw [List.foldl_cons, ih, addChangedFile_mem]
      constructor
      · rintro ((hx | ⟨h1, h2, h3⟩) | ⟨g, hg, h1, h2, h3⟩)
        · exact Or.inl hx
        · exact Or.inr ⟨f, by simp, h1, h2, h3⟩
        · exact Or.inr ⟨g, by simp [hg], h1, h2, h3⟩
      · rintro (hx | ⟨g, hg, h1, h2, h3⟩)
        · exact Or.inl (Or.inl hx)
        · rcases List.mem_cons.mp hg with rfl | hg2
          · exact Or.inl (Or.inr ⟨h1, h2, h3⟩)
          · exact Or.inr ⟨g, hg2, h1, h2, h3⟩

/-- The collected-directory fold never introduces duplicates. -/
theorem detectFold_nodup : ∀ (files : List String) (acc : List PyStr),
    acc.Nodup → (files.foldl addChangedFile acc).Nodup := by
  intro files
  induction files with
  | nil => intro acc h; exact h
  | cons f fs ih =>
      intro acc h
      rw [List.foldl_cons]
      refine ih _ ?_
      by_cases h1 : f = ""
      · subst h1; simpa [addChangedFile] using h
      · rw [addChangedFile, if_neg (by simpa using h1)]
        by_cases h2 : keepCfnFile f = true
        · rw [if_pos h2]; exact setAdd_nodup _ _ h
        · rw [if_neg h2]; exact h

/-- C6, amended: on every branch other than `workflow_dispatch` with a
truthy resource path, the detector returns the comma-join of the
lexicographically sorted, deduplicated containing directories of exactly
those non-empty changed files that lie under `cloud-formation/` and end in
`.yml` or `.yaml` — the basename is not required to be a deployment-config
filename (see `detect_keeps_non_config_yaml`) — and an empty result after
filtering is returned as the empty string. -/
theorem detect_postprocessing
    (event_name : String) (resource_path app_name : Option String) (changed_files : List String)
    (hbranch : ¬((event_name == "workflow_dispatch") && truthyOptStr resource_path) = true) :
    ∃ dirs : List PyStr,
      detect_changed_applications event_name resource_path app_name changed_files =
        String.mk (joinComma dirs) ∧
      dirs.Nodup ∧
      List.Sorted (fun a b : PyStr => a ≤ b) dirs ∧
      (∀ x, x ∈ dirs ↔
        ∃ f, f ∈ changed_files ∧ f ≠ "" ∧ keepCfnFile f = true ∧ dirname f.data = x) ∧
      ((∀ f ∈ changed_files, f = "" ∨ keepCfnFile f = false) →
        detect_changed_applications event_name resource_path app_name changed_files = "") := by
  have hdet : detect_changed_applications event_name resource_path app_name changed_files =
      String.mk (joinComma (sortLex (changed_files.foldl addChangedFile []))) := by
    rw [detect_changed_applications, if_neg hbranch]
  have hperm : List.Perm (sortLex (changed_files.foldl addChangedFile []))
      (changed_files.foldl addChangedFile []) := List.perm_insertionSort _ _
  refine ⟨sortLex (changed_files.foldl addChangedFile []), hdet, ?_, ?_, ?_, ?_⟩
  · exact (List.Perm.nodup_iff hperm).mpr (detectFold_nodup changed_files [] List.nodup_nil)
  · exact List.sorted_insertionSort _ _
  · intro x
    rw [List.Perm.mem_iff hperm, detectFold_mem]
    simp
  · intro hnone
    have hempty : changed_files.foldl addChangedFile [] = [] := by
      rw [List.eq_nil_iff_forall_not_mem]
      intro x hx
      rcases (detectFold_mem changed_files [] x).mp hx with hx0 | ⟨f, hf, h1, h2, _⟩
      · simp at hx0
      · rcases hnone f hf with rfl | hk
        · exact h1 rfl
        · rw [h2] at hk; exact absurd hk (by simp)
    rw [hdet, hempty]
    rfl

/-- Witness for `detect_postprocessing` on a concrete push-event file list:
two config directories collected (one from two files), sorted and joined,
with the non-root and empty entries dropped. -/
theorem detect_postprocessing_witness :
    (detect_changed_applications "push" none none
      ["cloud-formation/x/y/deployment-config.yml", "", "README.md",
       "cloud-formation/x/y/extra.yaml", "cloud-formation/a/b/c.yml"] =
      "cloud-formation/a/b,cloud-formation/x/y") ∧
    (∃ dirs : List PyStr,
      detect_changed_applications "push" none none
        ["cloud-formation/x/y/deployment-config.yml", "", "README.md",
         "cloud-formation/x/y/extra.yaml", "cloud-formation/a/b/c.yml"] =
        String.mk (joinComma dirs) ∧
      dirs.Nodup ∧
      List.Sorted (fun a b : PyStr => a ≤ b) dirs ∧
      (∀ x, x ∈ dirs ↔
        ∃ f, f ∈ ["cloud-formation/x/y/deployment-config.yml", "", "README.md",
          "cloud-formation/x/y/extra.yaml", "cloud-formation/a/b/c.yml"] ∧
          f ≠ "" ∧ keepCfnFile f = true ∧ dirname f.data = x) ∧
      ((∀ f ∈ ["cloud-formation/x/y/deployment-config.yml", "", "README.md",
          "cloud-formation/x/y/extra.yaml", "cloud-formation/a/b/c.yml"],
          f = "" ∨ keepCfnFile f = false) →
        detect_changed_applications "push" none none
          ["cloud-formation/x/y/deployment-config.yml", "", "README.md",
           "cloud-formation/x/y/extra.yaml", "cloud-formation/a/b/c.yml"] = "")) :=
  ⟨rfl, detect_postprocessing "push" none none _ (by decide)⟩

/-- The key=value line loop is the fold of its upserts over the parsed
(non-skipped) lines. -/
theorem kvMergeTags_eq_pairs : ∀ (lines : List PyStr) (st : List JValue × JDict),
    kvMergeTags lines st =
      (lines.filterMap parseKvLine).foldl (fun st p => kvUpsertTag st p.1 p.2) st := by
  intro lines
  induction lines with
  | nil => intro st; rfl
  | cons l ls ih =>
      intro st
      rw [kvMergeTags] at *
      cases hp : parseKvLine l with
      | none => simp only [List.foldl_cons, hp, List.filterMap_cons_none hp]; exact ih st
      | some p =>
          simp only [List.foldl_cons, hp, List.filterMap_cons_some hp]
          exact ih _

/-- One upsert never shrinks the tag list. -/
theorem kvUpsertTag_length (st : List JValue × JDict) (k v : PyStr) :
    st.1.length ≤ (kvUpsertTag st k v).1.length := by
  rw [kvUpsertTag]
  cases dictLookup st.2 (jstr (String.mk k)) with
  | some i => simp
  | none => simp

/-- The upsert fold never shrinks the tag list. -/
theorem kvFoldPairs_length : ∀ (pairs : List (PyStr × PyStr)) (st : List JValue × JDict),
    st.1.length ≤ ((pairs.foldl (fun st p => kvUpsertTag st p.1 p.2) st).1).length := by
  intro pairs
  induction pairs with
  | nil => intro st; exact le_refl _
  | cons p ps ih =>
      intro st
      rw [List.foldl_cons]
      exact le_trans (kvUpsertTag_length st p.1 p.2) (ih _)

/-- Well-formed tags index without an exception. -/
theorem buildIndexBy_tags_ok : ∀ (ts : List JValue) (i : Nat) (d : JDict),
    (∀ t ∈ ts, isTagRec t = true) → ∃ d2, buildIndexByGo "Key" ts i d = Except.ok d2 := by
  intro ts
  induction ts with
  | nil => intro i d _; exact ⟨d, rfl⟩
  | cons t ts ih =>
      intro i d hwf
      have ht := hwf t (by simp)
      cases t with
      | jobj fs =>
          cases hk : lookupStr fs "Key" with
          | none => exact absurd ht (by simp [isTagRec, hk])
          | some kv =>
              cases kv with
              | jstr k =>
                  rw [buildIndexByGo]
                  have hsub : pySubscr (jobj fs) "Key" = Except.ok (jstr k) := by
                    rw [pySubscr, hk]
                  rw [hsub, exceptBindOk]
                  exact ih (i + 1) (dictIns d (jstr k) i) (fun x hx => hwf x (by simp [hx]))
              | jnull => exact absurd ht (by simp [isTagRec, hk])
              | jbool b => exact absurd ht (by simp [isTagRec, hk])
              | jnum n => exact absurd ht (by simp [isTagRec, hk])
              | jarr xs => exact absurd ht (by simp [isTagRec, hk])
              | jobj xs => exact absurd ht (by simp [isTagRec, hk])
      | jnull => exact absurd ht (by simp [isTagRec])
      | jbool b => exact absurd ht (by simp [isTagRec])
      | jnum n => exact absurd ht (by simp [isTagRec])
      | jstr s => exact absurd ht (by simp [isTagRec])
      | jarr xs => exact absurd ht (by simp [isTagRec])

/-- The key=value phase on a nonempty input, with the index built. -/
theorem tagKvPhase_ne (tagsKv : String) (combined0 : List JValue) (d : JDict)
    (hk : tagsKv ≠ "") (hd : buildIndexBy "Key" combined0 = Except.ok d) :
    tagKvPhase tagsKv combined0 =
      Except.ok (kvMergeTags (splitlines tagsKv.data) (combined0, d)).1 := by
  rw [tagKvPhase, if_neg hk]
  show (buildIndexBy "Key" combined0 >>= fun existing =>
    Except.ok (kvMergeTags (splitlines tagsKv.data) (combined0, existing)).1) = _
  rw [hd, exceptBindOk]

/-- C8: the tag processor fails hard exactly when the merged list is empty —
with both sources empty or unparseable it returns exit code 1 and writes no
`TAGS` output; as soon as one source contributes a tag (a valid key=value
line, or a nonempty well-formed JSON list) it returns exit code 0 and writes
the (nonempty) merged list. -/
theorem tag_merge_empty_fatal_nonempty_success (tagsJson : JsonSrc) (tagsKv : String) :
    ((tagsJson = JsonSrc.absent ∨ tagsJson = JsonSrc.malformed ∨ tagsJson = JsonSrc.parsed (jarr [])) →
      (splitlines tagsKv.data).filterMap parseKvLine = [] →
      tagProcessorExecute tagsJson tagsKv = Except.ok (1, none)) ∧
    ((tagsJson = JsonSrc.absent ∨ tagsJson = JsonSrc.malformed ∨ tagsJson = JsonSrc.parsed (jarr [])) →
      (splitlines tagsKv.data).filterMap parseKvLine ≠ [] →
      ∃ ts, tagProcessorExecute tagsJson tagsKv = Except.ok (0, some ts) ∧ ts ≠ []) ∧
    (∀ js : List JValue, tagsJson = JsonSrc.parsed (jarr js) → js ≠ [] →
      (∀ t ∈ js, isTagRec t = true) →
      ∃ ts, tagProcessorExecute tagsJson tagsKv = Except.ok (0, some ts) ∧ ts ≠ []) := by
  have hform : ∀ _ : tagsJson = JsonSrc.absent ∨ tagsJson = JsonSrc.malformed ∨
      tagsJson = JsonSrc.parsed (jarr []),
      tagProcessorExecute tagsJson tagsKv =
        (tagKvPhase tagsKv [] >>= fun combined =>
          if combined.isEmpty then Except.ok (1, none) else Except.ok (0, some combined)) := by
    intro h
    rcases h with rfl | rfl | rfl <;> rfl
  have hidx0 : buildIndexBy "Key" ([] : List JValue) = Except.ok ([] : JDict) := rfl
  refine ⟨?_, ?_, ?_⟩
  · intro hj hkv
    rw [hform hj]
    by_cases hk : tagsKv = ""
    · rw [tagKvPhase, if_pos hk]; rfl
    · rw [tagKvPhase_ne tagsKv [] [] hk hidx0, exceptBindOk, kvMergeTags_eq_pairs, hkv]
      rfl
  · intro hj hkv
    have hk : tagsKv ≠ "" := by
      intro h0
      rw [h0] at hkv
      exact hkv rfl
    rw [hform hj, tagKvPhase_ne tagsKv [] [] hk hidx0, exceptBindOk]
    have hlen : 1 ≤ (kvMergeTags (splitlines tagsKv.data) ([], ([] : JDict))).1.length := by
      rw [kvMergeTags_eq_pairs]
      cases hp : (splitlines tagsKv.data).filterMap parseKvLine with
      | nil => exact absurd hp hkv
      | cons p rest =>
          rw [List.foldl_cons]
          refine le_trans ?_ (kvFoldPairs_length rest _)
          have h1 : (kvUpsertTag (([] : List JValue), ([] : JDict)) p.1 p.2).1.length = 1 := rfl
          omega
    have hne : (kvMergeTags (splitlines tagsKv.data) ([], ([] : JDict))).1 ≠ [] := by
      intro h0
      rw [h0] at hlen
      simp at hlen
    obtain ⟨c, cs, hx⟩ := List.exists_cons_of_ne_nil hne
    rw [hx]
    exact ⟨c :: cs, by rw [if_neg (by simp)], by simp⟩
  · intro js hjs hne hwf
    subst hjs
    have h0 : tagProcessorExecute (JsonSrc.parsed (jarr js)) tagsKv =
        (tagKvPhase tagsKv js >>= fun combined =>
          if combined.isEmpty then Except.ok (1, none) else Except.ok (0, some combined)) := rfl
    by_cases hk : tagsKv = ""
    · rw [h0, tagKvPhase, if_pos hk, exceptBindOk]
      obtain ⟨c, cs, hx⟩ := List.exists_cons_of_ne_nil hne
      rw [hx]
      exact ⟨c :: cs, by rw [if_neg (by simp)], by simp⟩
    · obtain ⟨d, hd⟩ := buildIndexBy_tags_ok js 0 [] hwf
      rw [h0, tagKvPhase_ne tagsKv js d hk hd, exceptBindOk]
      have hlen : js.length ≤ (kvMergeTags (splitlines tagsKv.data) (js, d)).1.length := by
        rw [kvMergeTags_eq_pairs]
        exact kvFoldPairs_length _ (js, d)
      have hne2 : (kvMergeTags (splitlines tagsKv.data) (js, d)).1 ≠ [] := by
        intro h0x
        rw [h0x] at hlen
        simp only [List.length_nil, Nat.le_zero] at hlen
        exact hne (List.eq_nil_of_length_eq_zero hlen)
      obtain ⟨c, cs, hx⟩ := List.exists_cons_of_ne_nil hne2
      rw [hx]
      exact ⟨c :: cs, by rw [if_neg (by simp)], by simp⟩

/-- Witness for `tag_merge_empty_fatal_nonempty_success`: both sources empty
gives exit 1 without output; a single valid key=value line gives exit 0 with
a nonempty list; a one-element JSON list alone gives exit 0 as well. -/
theorem tag_merge_empty_fatal_nonempty_success_witness :
    tagProcessorExecute JsonSrc.absent "" = Except.ok (1, none) ∧
    (∃ ts, tagProcessorExecute JsonSrc.absent "K=v" = Except.ok (0, some ts) ∧ ts ≠ []) ∧
    (∃ ts, tagProcessorExecute (JsonSrc.parsed (jarr [mkTagS "K" "v"])) "" =
      Except.ok (0, some ts) ∧ ts ≠ []) :=
  ⟨(tag_merge_empty_fatal_nonempty_success JsonSrc.absent "").1 (Or.inl rfl) rfl,
   (tag_merge_empty_fatal_nonempty_success JsonSrc.absent "K=v").2.1 (Or.inl rfl) (by decide),
   (tag_merge_empty_fatal_nonempty_success (JsonSrc.parsed (jarr [mkTagS "K" "v"])) "").2.2
     [mkTagS "K" "v"] rfl (by simp)
     (by
       intro t ht
       rw [List.mem_singleton] at ht
       subst ht
       rfl)⟩

/-- `rstrip` distributes over a cons whose tail keeps some character. -/
theorem pyStripRight_cons_of_ne (c : Char) (ls : PyStr) (h : pyStripRight ls ≠ []) :
    pyStripRight (c :: ls) = c :: pyStripRight ls := by
  have hne : (ls.reverse.dropWhile pyIsSpace).isEmpty = false := by
    cases hx : ls.reverse.dropWhile pyIsSpace with
    | nil => exact absurd (by rw [pyStripRight, hx]; rfl) h
    | cons a as => rfl
  rw [pyStripRight, pyStripRight, List.reverse_cons, List.dropWhile_append, hne]
  simp

/-- `rstrip` of a cons whose tail strips away entirely. -/
theorem pyStripRight_cons_of_nil (c : Char) (ls : PyStr) (h : pyStripRight ls = []) :
    pyStripRight (c :: ls) = if pyIsSpace c then [] else [c] := by
  have hnil : (ls.reverse.dropWhile pyIsSpace).isEmpty = true := by
    rw [pyStripRight] at h
    cases hx : ls.reverse.dropWhile pyIsSpace with
    | nil => rfl
    | cons a as => rw [hx] at h; simp at h
  rw [pyStripRight, List.reverse_cons, List.dropWhile_append, hnil]
  by_cases hc : pyIsSpace c = true
  · simp [List.dropWhile, hc]
  · rw [Bool.not_eq_true] at hc
    simp [List.dropWhile, hc]

/-- `rstrip` keeps a non-space head. -/
theorem pyStripRight_cons_nonspace (c : Char) (ls : PyStr) (hc : pyIsSpace c = false) :
    pyStripRight (c :: ls) = c :: pyStripRight ls := by
  by_cases h : pyStripRight ls = []
  · rw [pyStripRight_cons_of_nil c ls h, h, if_neg (by rw [hc]; exact Bool.false_ne_true)]
  · exact pyStripRight_cons_of_ne c ls h

/-- `rstrip` ignores a prefix when the suffix keeps some character. -/
theorem pyStripRight_append_of_ne : ∀ (a b : PyStr), pyStripRight b ≠ [] →
    pyStripRight (a ++ b) = a ++ pyStripRight b := by
  intro a
  induction a with
  | nil => intro b _; rfl
  | cons c a2 ih =>
      intro b hb
      have h2 : pyStripRight (a2 ++ b) = a2 ++ pyStripRight b := ih b hb
      have hne : pyStripRight (a2 ++ b) ≠ [] := by
        rw [h2]
        intro hx
        rcases List.append_eq_nil.mp hx with ⟨_, h4⟩
        exact hb h4
      show pyStripRight (c :: (a2 ++ b)) = _
      rw [pyStripRight_cons_of_ne c _ hne, h2]
      rfl

/-- `lstrip` and `rstrip` commute. -/
theorem pyStrip_comm : ∀ (l : PyStr), pyStripLeft (pyStripRight l) = pyStripRight (pyStripLeft l) := by
  intro l
  induction l with
  | nil => rfl
  | cons c ls ih =>
      by_cases hc : pyIsSpace c = true
      · have hL : pyStripLeft (c :: ls) = pyStripLeft ls := by
          rw [pyStripLeft, List.dropWhile_cons, if_pos hc]; rfl
        by_cases hsr : pyStripRight ls = []
        · have hR : pyStripRight (c :: ls) = [] := by
            rw [pyStripRight_cons_of_nil c ls hsr, if_pos hc]
          rw [hR, hL, ← ih, hsr]
        · have hR : pyStripRight (c :: ls) = c :: pyStripRight ls :=
            pyStripRight_cons_of_ne c ls hsr
          rw [hR, hL, ← ih]
          rw [pyStripLeft, List.dropWhile_cons, if_pos hc]
          rfl
      · rw [Bool.not_eq_true] at hc
        have hL : pyStripLeft (c :: ls) = c :: ls := by
          rw [pyStripLeft, List.dropWhile_cons, hc]
          simp
        have hR : pyStripRight (c :: ls) = c :: pyStripRight ls :=
          pyStripRight_cons_nonspace c ls hc
        rw [hR, hL, pyStripLeft, List.dropWhile_cons, hc]
        simp only [Bool.false_eq_true, if_false]
        rw [pyStripRight_cons_nonspace c ls hc]

/-- `rstrip` is idempotent. -/
theorem pyStripRight_idem (l : PyStr) : pyStripRight (pyStripRight l) = pyStripRight l := by
  rw [pyStripRight, pyStripRight, List.reverse_reverse, List.dropWhile_idempotent]

/-- `strip` of an `lstrip` is plain `strip`. -/
theorem pyStrip_stripLeft (l : PyStr) : pyStrip (pyStripLeft l) = pyStrip l := by
  rw [pyStrip, pyStrip, pyStripLeft, pyStripLeft, List.dropWhile_idempotent]

/-- `strip` of an `rstrip` is plain `strip`. -/
theorem pyStrip_stripRight (l : PyStr) : pyStrip (pyStripRight l) = pyStrip l := by
  rw [pyStrip, pyStrip, pyStrip_comm, pyStripRight_idem]

/-- `strip` of `key=value` splits into the stripped halves around `=`. -/
theorem pyStrip_keyval (k v : PyStr) :
    pyStrip (k ++ '=' :: v) = pyStripLeft k ++ '=' :: pyStripRight v := by
  have h1 : pyStripLeft (k ++ '=' :: v) = pyStripLeft k ++ '=' :: v := by
    rw [pyStripLeft, List.dropWhile_append]
    by_cases h : (k.dropWhile pyIsSpace).isEmpty = true
    · rw [h]
      simp only [if_true]
      have h0 : pyStripLeft k = [] := by
        rw [pyStripLeft]
        exact List.isEmpty_iff.mp h
      rw [h0, List.dropWhile_cons, show pyIsSpace '=' = false from rfl]
      simp
    · rw [Bool.eq_false_iff.mpr h]
      simp only [Bool.false_eq_true, if_false]
      rfl
  have h2 : pyStripRight ('=' :: v) = '=' :: pyStripRight v :=
    pyStripRight_cons_nonspace '=' v (by rfl)
  have h3 : pyStripRight ('=' :: v) ≠ [] := by
    rw [h2]
    exact List.cons_ne_nil _ _
  rw [pyStrip, h1, pyStripRight_append_of_ne (pyStripLeft k) ('=' :: v) h3, h2]

/-- `splitlines` of a nonempty single-line string. -/
theorem splitlinesGo_no_newline : ∀ (s acc : PyStr),
    (∀ c ∈ s, c ≠ '\n' ∧ c ≠ '\r') → (acc.isEmpty = false ∨ s ≠ []) →
    splitlinesGo s acc = [acc.reverse ++ s] := by
  intro s
  induction s with
  | nil =>
      intro acc _ h2
      rcases h2 with h2 | h2
      · rw [splitlinesGo, h2]
        simp
      · exact absurd rfl h2
  | cons c cs ih =>
      intro acc hno _
      have hc := hno c (by simp)
      rw [splitlinesGo.eq_5 acc c cs (fun h => hc.1 h) (fun _ h _ => hc.2 h) (fun h => hc.2 h)]
      rw [ih (c :: acc) (fun x hx => hno x (by simp [hx])) (Or.inl rfl)]
      simp

/-- `split('=', 1)` around the first `=`. -/
theorem splitFirstEq_append : ∀ (a b : PyStr), '=' ∉ a →
    splitFirstEq (a ++ '=' :: b) = some (a, b) := by
  intro a
  induction a with
  | nil => intro b _; rfl
  | cons c cs ih =>
      intro b hne
      have hc : c ≠ '=' := by
        intro h
        exact hne (by simp [h])
      show splitFirstEq (c :: (cs ++ '=' :: b)) = _
      rw [splitFirstEq.eq_3 c (cs ++ '=' :: b) (fun h => hc h)]
      rw [ih b (fun h => hne (by simp [h]))]

/-- One `KEY=VALUE` line parses to the stripped key and the stripped,
quote-stripped value. -/
theorem parseKvLine_keyval (k v : PyStr)
    (heq : '=' ∉ k)
    (hhash : (pyStripLeft k).headD '=' ≠ '#') :
    parseKvLine (k ++ '=' :: v) = some (pyStrip k, stripQuotes (pyStrip v)) := by
  have hl : pyStrip (k ++ '=' :: v) = pyStripLeft k ++ '=' :: pyStripRight v := pyStrip_keyval k v
  have hnA : '=' ∉ pyStripLeft k := fun hm =>
    heq ((List.dropWhile_sublist pyIsSpace).mem hm)
  rw [parseKvLine, hl]
  rw [if_neg (by simp)]
  have hhead : (pyStripLeft k ++ '=' :: pyStripRight v).headD ' ' ≠ '#' := by
    cases hA : pyStripLeft k with
    | nil => simp [List.headD]
    | cons a as =>
        have h2 := hhash
        rw [hA] at h2
        simpa using h2
  rw [if_neg hhead, splitFirstEq_append _ _ hnA]
  dsimp only
  rw [pyStrip_stripLeft, pyStrip_stripRight]

/-- C7, amended: a single `KEY=VALUE` line (no newline characters, no `=` in
the key, not a comment) yields exactly one TagRecord whose key and value are
whitespace-trimmed and whose value has one layer of surrounding quotes
stripped whenever its first and last characters are each a quote character —
matching or not (see `kv_line_strips_mismatched_quotes`). -/
theorem kv_single_line_one_tag (k v : PyStr)
    (hnl : ∀ c ∈ k ++ '=' :: v, c ≠ '\n' ∧ c ≠ '\r')
    (heq : '=' ∉ k)
    (hhash : (pyStripLeft k).headD '=' ≠ '#') :
    tagProcessorExecute JsonSrc.absent (String.mk (k ++ '=' :: v)) =
      Except.ok (0, some [mkTag (pyStrip k) (stripQuotes (pyStrip v))]) := by
  have hform : tagProcessorExecute JsonSrc.absent (String.mk (k ++ '=' :: v)) =
      (tagKvPhase (String.mk (k ++ '=' :: v)) [] >>= fun combined =>
        if combined.isEmpty then Except.ok (1, none) else Except.ok (0, some combined)) := rfl
  have hkne : String.mk (k ++ '=' :: v) ≠ "" := by
    intro h
    have h2 := congrArg String.data h
    simp at h2
  rw [hform, tagKvPhase_ne _ [] [] hkne rfl, exceptBindOk]
  rw [show (String.mk (k ++ '=' :: v)).data = k ++ '=' :: v from rfl]
  have hsl : splitlines (k ++ '=' :: v) = [k ++ '=' :: v] := by
    rw [splitlines]
    exact splitlinesGo_no_newline _ [] hnl (Or.inr (by simp))
  rw [hsl]
  have hparse := parseKvLine_keyval k v heq hhash
  have hmerge : kvMergeTags [k ++ '=' :: v] ([], []) =
      ([mkTag (pyStrip k) (stripQuotes (pyStrip v))],
       [(jstr (String.mk (pyStrip k)), 0)]) := by
    rw [kvMergeTags, List.foldl_cons]
    rw [hparse]
    rfl
  rw [hmerge]
  rfl

/-- Witness for `kv_single_line_one_tag`: the spec's own example line
`FOO="bar baz"` yields the single tag `FOO` / `bar baz`. -/
theorem kv_single_line_one_tag_witness :
    tagProcessorExecute JsonSrc.absent (String.mk ("FOO".data ++ '=' :: "\"bar baz\"".data)) =
      Except.ok (0, some [mkTag "FOO".data "bar baz".data]) := by
  have h := kv_single_line_one_tag "FOO".data "\"bar baz\"".data (by decide) (by decide) (by decide)
  exact h

/-- `findIdx?` misses exactly the absent elements (any start index). -/
theorem findIdx?_beq_none_iff (s : String) : ∀ (l : List String) (i : Nat),
    List.findIdx? (fun x => x == s) l i = none ↔ s ∉ l := by
  intro l
  induction l with
  | nil => intro i; simp
  | cons a as ih =>
      intro i
      rw [List.findIdx?_cons]
      by_cases ha : (a == s) = true
      · rw [if_pos ha]
        simp only [beq_iff_eq] at ha
        subst ha
        simp
      · rw [if_neg (by simpa using ha), ih (i + 1)]
        simp only [beq_iff_eq] at ha
        constructor
        · intro h hm
          rcases List.mem_cons.mp hm with rfl | hm2
          · exact ha rfl
          · exact h hm2
        · intro h hm
          exact h (by simp [hm])

/-- A successful `findIdx?` from start index 0 points at a matching
element. -/
theorem findIdx?_zero_some (p : String → Bool) : ∀ (l : List String) (i0 j : Nat),
    List.findIdx? p l i0 = some j → i0 ≤ j ∧ ∃ x, l[j - i0]? = some x ∧ p x = true := by
  intro l
  induction l with
  | nil => intro i0 j h; simp at h
  | cons a as ih =>
      intro i0 j h
      rw [List.findIdx?_cons] at h
      by_cases ha : p a = true
      · rw [if_pos ha] at h
        have hj : i0 = j := by simpa using h
        subst hj
        exact ⟨le_refl _, a, by simp, ha⟩
      · rw [if_neg (by simpa using ha)] at h
        obtain ⟨hle, x, hx, hpx⟩ := ih (i0 + 1) j h
        refine ⟨by omega, x, ?_, hpx⟩
        have hpos : j - i0 = (j - (i0 + 1)) + 1 := by omega
        rw [hpos]
        simpa using hx

/-- `findIdx?` over a one-element extension. -/
theorem findIdx?_append_singleton (p : String → Bool) : ∀ (l : List String) (x : String) (i : Nat),
    List.findIdx? p (l ++ [x]) i =
      (match List.findIdx? p l i with
       | some j => some j
       | none => if p x then some (i + l.length) else none) := by
  intro l
  induction l with
  | nil =>
      intro x i
      rw [List.nil_append, List.findIdx?_cons]
      by_cases hx : p x = true
      · rw [if_pos hx]; simp [hx]
      · rw [if_neg (by simpa using hx), if_neg (by simpa using hx)]
        rfl
  | cons a as ih =>
      intro x i
      rw [List.cons_append, List.findIdx?_cons, List.findIdx?_cons]
      by_cases ha : p a = true
      · rw [if_pos ha, if_pos ha]
      · rw [if_neg (by simpa using ha), if_neg (by simpa using ha), ih]
        have : i + 1 + as.length = i + (a :: as).length := by simp; omega
        rw [this]

/-- `jeq` on string keys is string equality. -/
theorem jeq_jstr (a b : String) : jeq (jstr a) (jstr b) = (a == b) := rfl

/-- Unfolding one dict entry. -/
theorem dictLookup_cons (k0 : JValue) (j0 : Nat) (d : JDict) (q : JValue) :
    dictLookup ((k0, j0) :: d) q = if jeq k0 q then some j0 else dictLookup d q := rfl

/-- Lookup after a string-keyed dict insertion. -/
theorem dictLookup_dictIns_jstr : ∀ (d : JDict), dictStr d → ∀ (k : String) (n : Nat) (s : String),
    dictLookup (dictIns d (jstr k) n) (jstr s) =
      if s == k then some n else dictLookup d (jstr s) := by
  intro d
  induction d with
  | nil =>
      intro _ k n s
      rw [show dictIns [] (jstr k) n = [(jstr k, n)] from rfl, dictLookup_cons]
      rw [jeq_jstr]
      by_cases h : k = s
      · subst h; simp
      · have h1 : (k == s) = false := by simpa using h
        have h2 : (s == k) = false := by simpa using fun hc : s = k => h hc.symm
        simp [h1, h2]
  | cons e0 d2 ih =>
      intro hd k n s
      obtain ⟨v0, j0⟩ := e0
      obtain ⟨s0, hs0⟩ := hd (v0, j0) (by simp)
      simp only at hs0
      subst hs0
      have hd2 : dictStr d2 := fun x hx => hd x (by simp [hx])
      rw [show dictIns ((jstr s0, j0) :: d2) (jstr k) n =
        (if jeq (jstr s0) (jstr k) then (jstr s0, n) :: d2
         else (jstr s0, j0) :: dictIns d2 (jstr k) n) from rfl]
      by_cases h0k : s0 = k
      · subst h0k
        rw [if_pos (by rw [jeq_jstr]; simp)]
        rw [dictLookup_cons, dictLookup_cons]
        simp only [jeq_jstr]
        by_cases hss : s0 = s
        · subst hss; simp
        · have h1 : (s0 == s) = false := by simpa using hss
          have h2 : (s == s0) = false := by simpa using fun hc : s = s0 => hss hc.symm
          simp [h1, h2]
      · rw [if_neg (by rw [jeq_jstr]; simpa using h0k)]
        rw [dictLookup_cons, dictLookup_cons]
        simp only [jeq_jstr]
        by_cases h0s : s0 = s
        · subst h0s
          have h2 : (s0 == k) = false := by simpa using h0k
          rw [ih hd2 k n s0]
          simp [h2]
        · have h1 : (s0 == s) = false := by simpa using h0s
          rw [ih hd2 k n s]
          simp [h1]

/-- String-keyed insertion preserves `dictStr`. -/
theorem dictStr_dictIns : ∀ (d : JDict) (k : String) (n : Nat),
    dictStr d → dictStr (dictIns d (jstr k) n) := by
  intro d k n
  induction d with
  | nil =>
      intro _ e he
      simp only [dictIns, List.mem_singleton] at he
      exact ⟨k, by rw [he]⟩
  | cons e0 d2 ih =>
      intro hd e he
      obtain ⟨k0, j0⟩ := e0
      rw [show dictIns ((k0, j0) :: d2) (jstr k) n =
        (if jeq k0 (jstr k) then (k0, n) :: d2 else (k0, j0) :: dictIns d2 (jstr k) n) from rfl] at he
      by_cases h : jeq k0 (jstr k) = true
      · rw [if_pos h] at he
        rcases List.mem_cons.mp he with rfl | he2
        · obtain ⟨s0, hs0⟩ := hd (k0, j0) (by simp)
          exact ⟨s0, hs0⟩
        · exact hd e (by simp [he2])
      · rw [if_neg h] at he
        rcases List.mem_cons.mp he with rfl | he2
        · exact hd (k0, j0) (by simp)
        · exact ih (fun x hx => hd x (by simp [hx])) e he2

/-- A well-formed tag record yields its key under Python subscription. -/
theorem isTagRec_subscr : ∀ {t : JValue}, isTagRec t = true →
    pySubscr t "Key" = Except.ok (jstr (tagKeyD t)) := by
  intro t h
  cases t with
  | jobj fs =>
      cases hk : lookupStr fs "Key" with
      | none => exact absurd h (by simp [isTagRec, hk])
      | some kv =>
          cases kv with
          | jstr k =>
              show (match lookupStr fs "Key" with
                    | some x => Except.ok x
                    | none => Except.error (PyErr.keyError (jstr "Key"))) = _
              rw [hk]
              have hkey : tagKeyD (jobj fs) = k := by simp [tagKeyD, getField, hk]
              rw [hkey]
          | jnull => exact absurd h (by simp [isTagRec, hk])
          | jbool b => exact absurd h (by simp [isTagRec, hk])
          | jnum n => exact absurd h (by simp [isTagRec, hk])
          | jarr xs => exact absurd h (by simp [isTagRec, hk])
          | jobj xs => exact absurd h (by simp [isTagRec, hk])
  | jnull => exact absurd h (by simp [isTagRec])
  | jbool b => exact absurd h (by simp [isTagRec])
  | jnum n => exact absurd h (by simp [isTagRec])
  | jstr s => exact absurd h (by simp [isTagRec])
  | jarr xs => exact absurd h (by simp [isTagRec])

/-- A well-formed parameter record yields its key under Python
subscription. -/
theorem isParamRec_subscr : ∀ {p : JValue}, isParamRec p = true →
    pySubscr p "ParameterKey" = Except.ok (jstr (paramKeyD p)) := by
  intro p h
  cases p with
  | jobj fs =>
      cases hk : lookupStr fs "ParameterKey" with
      | none => exact absurd h (by simp [isParamRec, hk])
      | some kv =>
          cases kv with
          | jstr k =>
              show (match lookupStr fs "ParameterKey" with
                    | some x => Except.ok x
                    | none => Except.error (PyErr.keyError (jstr "ParameterKey"))) = _
              rw [hk]
              have hkey : paramKeyD (jobj fs) = k := by simp [paramKeyD, getField, hk]
              rw [hkey]
          | jnull => exact absurd h (by simp [isParamRec, hk])
          | jbool b => exact absurd h (by simp [isParamRec, hk])
          | jnum n => exact absurd h (by simp [isParamRec, hk])
          | jarr xs => exact absurd h (by simp [isParamRec, hk])
          | jobj xs => exact absurd h (by simp [isParamRec, hk])
  | jnull => exact absurd h (by simp [isParamRec])
  | jbool b => exact absurd h (by simp [isParamRec])
  | jnum n => exact absurd h (by simp [isParamRec])
  | jstr s => exact absurd h (by simp [isParamRec])
  | jarr xs => exact absurd h (by simp [isParamRec])

/-- The index comprehension over records with pairwise-distinct string keys:
it succeeds, keeps string keys, and its lookup extends the accumulator by
first-match key search. -/
theorem buildIndexByGo_lookup (f : String) (g : JValue → String) :
    ∀ (ts : List JValue) (i : Nat) (d : JDict),
    (∀ t ∈ ts, pySubscr t f = Except.ok (jstr (g t))) → (ts.map g).Nodup → dictStr d →
    ∃ d2, buildIndexByGo f ts i d = Except.ok d2 ∧ dictStr d2 ∧
      ∀ s : String, dictLookup d2 (jstr s) =
        (match List.findIdx? (fun x => x == s) (ts.map g) i with
         | some j => some j
         | none => dictLookup d (jstr s)) := by
  intro ts
  induction ts with
  | nil =>
      intro i d _ _ hd
      exact ⟨d, rfl, hd, fun s => by simp⟩
  | cons t ts ih =>
      intro i d hsub hnd hd
      have ht := hsub t (by simp)
      have hnd2 := (List.nodup_cons.mp hnd).2
      have hnotin := (List.nodup_cons.mp hnd).1
      obtain ⟨d2, hrun, hd2, hlook⟩ := ih (i + 1) (dictIns d (jstr (g t)) i)
        (fun x hx => hsub x (by simp [hx])) hnd2 (dictStr_dictIns d (g t) i hd)
      refine ⟨d2, ?_, hd2, ?_⟩
      · rw [buildIndexByGo, ht, exceptBindOk]
        exact hrun
      · intro s
        rw [hlook s, List.map_cons, List.findIdx?_cons]
        have hins := dictLookup_dictIns_jstr d hd (g t) i s
        by_cases hgs : (g t == s) = true
        · have hseq : g t = s := by simpa using hgs
          have hnone : List.findIdx? (fun x => x == s) (List.map g ts) (i + 1) = none := by
            rw [findIdx?_beq_none_iff]
            rw [← hseq]
            exact hnotin
          rw [hnone, if_pos hgs]
          rw [hins, if_pos (by simp [hseq])]
        · have hgs2 : g t ≠ s := by simpa using hgs
          have hsne : (s == g t) = false := by
            simpa using fun hc : s = g t => hgs2 hc.symm
          rw [if_neg (by simpa using hgs)]
          cases ho : List.findIdx? (fun x => x == s) (List.map g ts) (i + 1) with
          | some j => simp
          | none =>
              simp only
              rw [hins, hsne]
              simp

/-- `buildIndexBy` over records with pairwise-distinct string keys computes
the first-index table. -/
theorem buildIndexBy_lookup (f : String) (g : JValue → String) (ts : List JValue)
    (hsub : ∀ t ∈ ts, pySubscr t f = Except.ok (jstr (g t)))
    (hnd : (ts.map g).Nodup) :
    ∃ d2, buildIndexBy f ts = Except.ok d2 ∧ dictStr d2 ∧
      ∀ s : String, dictLookup d2 (jstr s) =
        List.findIdx? (fun x => x == s) (ts.map g) 0 := by
  obtain ⟨d2, hrun, hd2, hlook⟩ :=
    buildIndexByGo_lookup f g ts 0 [] hsub hnd (fun e he => absurd he (by simp))
  refine ⟨d2, hrun, hd2, fun s => ?_⟩
  rw [hlook s]
  cases List.findIdx? (fun x => x == s) (ts.map g) 0 with
  | some j => rfl
  | none => rfl

/-- Setting a position to the value it already holds is the identity. -/
theorem set_self_getElem {α : Type} : ∀ (l : List α) (i : Nat) (b : α),
    l[i]? = some b → l.set i b = l := by
  intro l
  induction l with
  | nil => intro i b h; simp at h
  | cons a as ih =>
      intro i b h
      cases i with
      | zero =>
          have hb : a = b := by simpa using h
          subst hb
          rfl
      | succ j =>
          have hj : as[j]? = some b := by simpa using h
          show a :: as.set j b = a :: as
          rw [ih j b hj]

/-- On well-formed tags the key test is key equality. -/
theorem tagKeyIs_of_wf : ∀ {t : JValue}, isTagRec t = true → ∀ (K : String),
    tagKeyIs K t = (tagKeyD t == K) := by
  intro t h K
  cases t with
  | jobj fs =>
      cases hk : lookupStr fs "Key" with
      | none => exact absurd h (by simp [isTagRec, hk])
      | some kv =>
          cases kv with
          | jstr k => simp [tagKeyIs, tagKeyD, getField, hk]
          | jnull => exact absurd h (by simp [isTagRec, hk])
          | jbool b => exact absurd h (by simp [isTagRec, hk])
          | jnum n => exact absurd h (by simp [isTagRec, hk])
          | jarr xs => exact absurd h (by simp [isTagRec, hk])
          | jobj xs => exact absurd h (by simp [isTagRec, hk])
  | jnull => exact absurd h (by simp [isTagRec])
  | jbool b => exact absurd h (by simp [isTagRec])
  | jnum n => exact absurd h (by simp [isTagRec])
  | jstr s => exact absurd h (by simp [isTagRec])
  | jarr xs => exact absurd h (by simp [isTagRec])

/-- A key absent from a well-formed tag list selects nothing. -/
theorem tagFilter_nil (K : String) : ∀ (l : List JValue),
    (∀ t ∈ l, isTagRec t = true) → K ∉ tagKeysOf l →
    l.filter (tagKeyIs K) = [] := by
  intro l
  induction l with
  | nil => intro _ _; rfl
  | cons t ts ih =>
      intro hwf hK
      have hne : tagKeyD t ≠ K := by
        intro hc
        exact hK (by rw [← hc]; exact List.mem_cons_self _ _)
      have hkey : tagKeyIs K t = false := by
        rw [tagKeyIs_of_wf (hwf t (by simp)) K]
        simpa using hne
      rw [List.filter_cons, if_neg (by simp [hkey])]
      exact ih (fun x hx => hwf x (by simp [hx]))
        (fun hm => hK (List.mem_cons_of_mem _ hm))

/-- Replacing the unique holder of a key by a same-keyed well-formed tag:
the key's selection becomes that tag; other keys' selections are
untouched. -/
theorem tagFilter_set (K : String) : ∀ (l : List JValue) (i : Nat) (a a0 : JValue),
    (∀ t ∈ l, isTagRec t = true) → (tagKeysOf l).Nodup →
    l[i]? = some a0 → tagKeyD a = tagKeyD a0 → isTagRec a = true →
    (l.set i a).filter (tagKeyIs K) =
      (if tagKeyD a == K then [a] else l.filter (tagKeyIs K)) := by
  intro l
  induction l with
  | nil => intro i a a0 _ _ h _ _; simp at h
  | cons x xs ih =>
      intro i a a0 hwf hnd hget hkey hwfa
      have hwfx := hwf x (by simp)
      have hndx := (List.nodup_cons.mp hnd).1
      have hndxs := (List.nodup_cons.mp hnd).2
      cases i with
      | zero =>
          have hx : x = a0 := by simpa using hget
          rw [show (x :: xs).set 0 a = a :: xs from rfl]
          rw [List.filter_cons, List.filter_cons]
          by_cases hK : (tagKeyD a == K) = true
          · have hKa : tagKeyD a = K := by simpa using hK
            have hfil : xs.filter (tagKeyIs K) = [] := by
              apply tagFilter_nil K xs (fun t ht => hwf t (by simp [ht]))
              rw [← hKa, hkey, ← hx]
              exact hndx
            rw [if_pos hK, if_pos (by rw [tagKeyIs_of_wf hwfa K]; exact hK), hfil]
          · have hKa : tagKeyD a ≠ K := by simpa using hK
            have haK : tagKeyIs K a = false := by
              rw [tagKeyIs_of_wf hwfa K]
              simpa using hKa
            have hxK : tagKeyIs K x = false := by
              rw [tagKeyIs_of_wf hwfx K]
              have h2 : tagKeyD x ≠ K := by rw [hx, ← hkey]; exact hKa
              simpa using h2
            simp [haK, hxK, hK]
      | succ j =>
          have hj : xs[j]? = some a0 := by simpa using hget
          have ha0mem : a0 ∈ xs := List.getElem?_mem hj
          rw [show (x :: xs).set (j + 1) a = x :: xs.set j a from rfl]
          rw [List.filter_cons, List.filter_cons]
          have hihx := ih j a a0 (fun t ht => hwf t (by simp [ht])) hndxs hj hkey hwfa
          by_cases hK : (tagKeyD a == K) = true
          · have hKa : tagKeyD a = K := by simpa using hK
            have hxK : tagKeyIs K x = false := by
              rw [tagKeyIs_of_wf hwfx K]
              have hmemk : K ∈ tagKeysOf xs := by
                rw [← hKa, hkey]
                exact List.mem_map_of_mem tagKeyD ha0mem
              have h2 : tagKeyD x ≠ K := fun hc => hndx (by rw [hc]; exact hmemk)
              simpa using h2
            simp [hxK, hihx, hK]
          · simp only [hihx, if_neg hK]

/-- One key=value upsert on a good state: the state stays good, the upserted
key's selection becomes exactly the new tag, and every other key's selection
is untouched. -/
theorem kvUpsertTag_good (K : String) (st : List JValue × JDict) (k v : PyStr)
    (hG : GoodTagState st) :
    GoodTagState (kvUpsertTag st k v) ∧
    (kvUpsertTag st k v).1.filter (tagKeyIs K) =
      (if String.mk k == K then [mkTag k v] else st.1.filter (tagKeyIs K)) := by
  obtain ⟨hwf, hnd, hds, hidx⟩ := hG
  have hwfm : isTagRec (mkTag k v) = true := rfl
  have hkm : tagKeyD (mkTag k v) = String.mk k := rfl
  cases hlk : dictLookup st.2 (jstr (String.mk k)) with
  | some i =>
      have hupd : kvUpsertTag st k v = (st.1.set i (mkTag k v), st.2) := by
        simp only [kvUpsertTag]
        rw [hlk]
      have hfind : List.findIdx? (fun x => x == String.mk k) (tagKeysOf st.1) 0 = some i := by
        rw [← hidx (String.mk k)]
        exact hlk
      obtain ⟨-, w, hw, hpw⟩ := findIdx?_zero_some _ _ 0 i hfind
      have hw0 : (tagKeysOf st.1)[i]? = some w := by simpa using hw
      have hweq : w = String.mk k := by simpa using hpw
      subst hweq
      have hmap : (List.map tagKeyD st.1)[i]? = some (String.mk k) := hw0
      rw [List.getElem?_map] at hmap
      cases hget : st.1[i]? with
      | none => rw [hget] at hmap; simp at hmap
      | some a0 =>
          rw [hget] at hmap
          have ha0k : tagKeyD a0 = String.mk k := by simpa using hmap
          have hkeys : tagKeysOf (st.1.set i (mkTag k v)) = tagKeysOf st.1 := by
            show List.map tagKeyD (st.1.set i (mkTag k v)) = _
            rw [List.map_set, hkm]
            exact set_self_getElem _ i _ hw0
          refine ⟨⟨?_, ?_, ?_, ?_⟩, ?_⟩
          · rw [hupd]
            intro t ht
            rcases List.mem_or_eq_of_mem_set ht with hm | rfl
            · exact hwf t hm
            · exact hwfm
          · rw [hupd]
            show (tagKeysOf (st.1.set i (mkTag k v))).Nodup
            rw [hkeys]
            exact hnd
          · rw [hupd]; exact hds
          · rw [hupd]
            intro s
            show dictLookup st.2 (jstr s) =
              List.findIdx? (fun x => x == s) (tagKeysOf (st.1.set i (mkTag k v))) 0
            rw [hkeys]
            exact hidx s
          · rw [hupd]
            show (st.1.set i (mkTag k v)).filter (tagKeyIs K) = _
            rw [tagFilter_set K st.1 i (mkTag k v) a0 hwf hnd hget (by rw [hkm, ha0k]) hwfm,
                hkm]
  | none =>
      have hupd : kvUpsertTag st k v =
          (st.1 ++ [mkTag k v], dictIns st.2 (jstr (String.mk k)) st.1.length) := by
        simp only [kvUpsertTag]
        rw [hlk]
      have hfind : List.findIdx? (fun x => x == String.mk k) (tagKeysOf st.1) 0 = none := by
        rw [← hidx (String.mk k)]
        exact hlk
      have hnotin : String.mk k ∉ tagKeysOf st.1 := (findIdx?_beq_none_iff _ _ 0).mp hfind
      have hkeys : tagKeysOf (st.1 ++ [mkTag k v]) = tagKeysOf st.1 ++ [String.mk k] := by
        show List.map tagKeyD (st.1 ++ [mkTag k v]) = _
        rw [List.map_append]
        rfl
      refine ⟨⟨?_, ?_, ?_, ?_⟩, ?_⟩
      · rw [hupd]
        intro t ht
        rcases List.mem_append.mp ht with hm | hm
        · exact hwf t hm
        · rw [List.mem_singleton] at hm
          rw [hm]
          exact hwfm
      · rw [hupd]
        show (tagKeysOf (st.1 ++ [mkTag k v])).Nodup
        rw [hkeys, List.nodup_append]
        refine ⟨hnd, List.nodup_singleton _, ?_⟩
        intro x hx hx2
        rw [List.mem_singleton] at hx2
        rw [hx2] at hx
        exact hnotin hx
      · rw [hupd]
        exact dictStr_dictIns st.2 (String.mk k) st.1.length hds
      · rw [hupd]
        intro s
        show dictLookup (dictIns st.2 (jstr (String.mk k)) st.1.length) (jstr s) =
          List.findIdx? (fun x => x == s) (tagKeysOf (st.1 ++ [mkTag k v])) 0
        rw [hkeys, dictLookup_dictIns_jstr st.2 hds, findIdx?_append_singleton]
        by_cases hsk : s = String.mk k
        · have hfn : List.findIdx? (fun x => x == s) (tagKeysOf st.1) 0 = none := by
            rw [findIdx?_beq_none_iff]
            rw [hsk]
            exact hnotin
          rw [hfn, if_pos (by simpa using hsk)]
          have hlen : (tagKeysOf st.1).length = st.1.length := by
            show (List.map tagKeyD st.1).length = _
            rw [List.length_map]
          simp [hsk, hlen]
        · rw [if_neg (by simpa using hsk), hidx s]
          cases ho : List.findIdx? (fun x => x == s) (tagKeysOf st.1) 0 with
          | some j => simp
          | none =>
              have : (String.mk k == s) = false := by
                simpa using fun hc : String.mk k = s => hsk hc.symm
              simp [this]
      · rw [hupd]
        show (st.1 ++ [mkTag k v]).filter (tagKeyIs K) = _
        rw [List.filter_append]
        have hm : tagKeyIs K (mkTag k v) = (String.mk k == K) := by
          rw [tagKeyIs_of_wf hwfm K, hkm]
        by_cases hK : (String.mk k == K) = true
        · have hKs : String.mk k = K := by simpa using hK
          have hfil : st.1.filter (tagKeyIs K) = [] := by
            apply tagFilter_nil K st.1 hwf
            rw [← hKs]
            exact hnotin
          rw [hfil, if_pos hK, List.filter_cons, if_pos (by rw [hm]; exact hK)]
          rfl
        · rw [if_neg (by simpa using hK), List.filter_cons,
              if_neg (by rw [hm]; simpa using hK)]
          simp

/-- The key=value upsert fold on a good state: goodness is preserved, and a
key's final selection is the last matching pair's tag (or the initial
selection when no pair matches). -/
theorem kvFold_filter (K : String) : ∀ (pairs : List (PyStr × PyStr)) (st : List JValue × JDict),
    GoodTagState st →
    GoodTagState (pairs.foldl (fun st p => kvUpsertTag st p.1 p.2) st) ∧
    (pairs.foldl (fun st p => kvUpsertTag st p.1 p.2) st).1.filter (tagKeyIs K) =
      (pairs.filter (fun p => String.mk p.1 == K)).foldl
        (fun _ p => [mkTag p.1 p.2]) (st.1.filter (tagKeyIs K)) := by
  intro pairs
  induction pairs with
  | nil => intro st h; exact ⟨h, rfl⟩
  | cons p ps ih =>
      intro st hG
      obtain ⟨hG2, hstep⟩ := kvUpsertTag_good K st p.1 p.2 hG
      obtain ⟨hG3, hfold⟩ := ih _ hG2
      refine ⟨by rw [List.foldl_cons]; exact hG3, ?_⟩
      rw [List.foldl_cons, hfold, hstep, List.filter_cons]
      by_cases hpK : (String.mk p.1 == K) = true
      · rw [if_pos hpK, if_pos (by simpa using hpK), List.foldl_cons]
      · rw [if_neg (by simpa using hpK), if_neg (by simpa using hpK)]

/-- C1, amended: in the `Scripts/main.py` `TagProcessor.execute` variant the
JSON source seeds the working list first and the key=value source is merged
second with a live keyed-merge, so a key present in both sources appears
exactly once in the output and carries the key=value source's value (the
`cfn-deploy/process-tags.py` variant resolves the same duplicate the other
way round).  Hypotheses: the JSON list is a well-formed tag list with
pairwise-distinct keys containing `K`, and the key=value lines contain
exactly one valid `K=...` pair, carrying the value `V`. -/
theorem tag_processor_kv_overrides_json
    (jtags : List JValue) (tagsKv : String) (K V : String) (k0 v0 : PyStr)
    (hwf : ∀ t ∈ jtags, isTagRec t = true)
    (hnd : (tagKeysOf jtags).Nodup)
    (hne : tagsKv ≠ "")
    (hKjson : K ∈ tagKeysOf jtags)
    (hpairs : ((splitlines tagsKv.data).filterMap parseKvLine).filter
        (fun p => String.mk p.1 == K) = [(k0, v0)])
    (hk0 : String.mk k0 = K) (hv0 : String.mk v0 = V) :
    ∃ ts, tagProcessorExecute (JsonSrc.parsed (jarr jtags)) tagsKv = Except.ok (0, some ts) ∧
      ts.filter (tagKeyIs K) = [mkTagS K V] := by
  obtain ⟨d2, hbi, hd2, hlook⟩ := buildIndexBy_lookup "Key" tagKeyD jtags
    (fun t ht => isTagRec_subscr (hwf t ht)) hnd
  have hGood : GoodTagState (jtags, d2) := ⟨hwf, hnd, hd2, fun s => hlook s⟩
  have h0 : tagProcessorExecute (JsonSrc.parsed (jarr jtags)) tagsKv =
      (tagKvPhase tagsKv jtags >>= fun combined =>
        if combined.isEmpty then Except.ok (1, none) else Except.ok (0, some combined)) := rfl
  rw [h0, tagKvPhase_ne tagsKv jtags d2 hne hbi, exceptBindOk, kvMergeTags_eq_pairs]
  obtain ⟨-, hfil⟩ := kvFold_filter K ((splitlines tagsKv.data).filterMap parseKvLine)
    (jtags, d2) hGood
  rw [hpairs] at hfil
  have hsel : (((splitlines tagsKv.data).filterMap parseKvLine).foldl
      (fun st p => kvUpsertTag st p.1 p.2) (jtags, d2)).1.filter (tagKeyIs K)
      = [mkTag k0 v0] := hfil
  have hlen : jtags.length ≤ (((splitlines tagsKv.data).filterMap parseKvLine).foldl
      (fun st p => kvUpsertTag st p.1 p.2) (jtags, d2)).1.length :=
    kvFoldPairs_length _ (jtags, d2)
  have hjne : jtags ≠ [] := by
    intro hc
    rw [hc] at hKjson
    simp [tagKeysOf] at hKjson
  have hpos : 0 < jtags.length := List.length_pos.mpr hjne
  have hres : (((splitlines tagsKv.data).filterMap parseKvLine).foldl
      (fun st p => kvUpsertTag st p.1 p.2) (jtags, d2)).1.isEmpty = false := by
    cases hc : (((splitlines tagsKv.data).filterMap parseKvLine).foldl
        (fun st p => kvUpsertTag st p.1 p.2) (jtags, d2)).1 with
    | nil => rw [hc] at hlen; simp only [List.length_nil, Nat.le_zero] at hlen; omega
    | cons c cs => rfl
  rw [if_neg (by simp [hres])]
  refine ⟨_, rfl, ?_⟩
  rw [hsel]
  rw [show mkTag k0 v0 = mkTagS (String.mk k0) (String.mk v0) from rfl, hk0, hv0]

/-- Witness for `tag_processor_kv_overrides_json`: the JSON source defines
`K=v1`, the key=value source defines `K=v2`; the merged output holds exactly
one `K` tag, with value `v2`. -/
theorem tag_processor_kv_overrides_json_witness :
    (∀ t ∈ [mkTagS "K" "v1"], isTagRec t = true) ∧
    (∃ ts, tagProcessorExecute (JsonSrc.parsed (jarr [mkTagS "K" "v1"])) "K=v2" =
      Except.ok (0, some ts) ∧ ts.filter (tagKeyIs "K") = [mkTagS "K" "v2"]) := by
  refine ⟨?_, ?_⟩
  · intro t ht
    rw [List.mem_singleton] at ht
    rw [ht]
    rfl
  · exact tag_processor_kv_overrides_json [mkTagS "K" "v1"] "K=v2" "K" "v2"
      "K".data "v2".data
      (by
        intro t ht
        rw [List.mem_singleton] at ht
        rw [ht]
        rfl)
      (by
        rw [show tagKeysOf [mkTagS "K" "v1"] = ["K"] from rfl]
        exact List.nodup_singleton _)
      (by decide)
      (by
        rw [show tagKeysOf [mkTagS "K" "v1"] = ["K"] from rfl]
        exact List.mem_singleton.mpr rfl)
      rfl rfl rfl

/-- On well-formed parameter records the key test is key equality. -/
theorem paramKeyIs_of_wf : ∀ {p : JValue}, isParamRec p = true → ∀ (K : String),
    paramKeyIs K p = (paramKeyD p == K) := by
  intro p h K
  cases p with
  | jobj fs =>
      cases hk : lookupStr fs "ParameterKey" with
      | none => exact absurd h (by simp [isParamRec, hk])
      | some kv =>
          cases kv with
          | jstr k => simp [paramKeyIs, paramKeyD, getField, hk]
          | jnull => exact absurd h (by simp [isParamRec, hk])
          | jbool b => exact absurd h (by simp [isParamRec, hk])
          | jnum n => exact absurd h (by simp [isParamRec, hk])
          | jarr xs => exact absurd h (by simp [isParamRec, hk])
          | jobj xs => exact absurd h (by simp [isParamRec, hk])
  | jnull => exact absurd h (by simp [isParamRec])
  | jbool b => exact absurd h (by simp [isParamRec])
  | jnum n => exact absurd h (by simp [isParamRec])
  | jstr s => exact absurd h (by simp [isParamRec])
  | jarr xs => exact absurd h (by simp [isParamRec])

/-- Inline secret substitution succeeds on a well-formed record and keeps
it well-formed with the same key. -/
theorem substInlineParam_ok (secrets : List (String × String)) :
    ∀ {p : JValue}, isParamRec p = true →
    ∃ p2, substInlineParam secrets p = Except.ok p2 ∧
      isParamRec p2 = true ∧ paramKeyD p2 = paramKeyD p := by
  intro p h
  cases p with
  | jobj fs =>
      cases hk : lookupStr fs "ParameterKey" with
      | none => exact absurd h (by simp [isParamRec, hk])
      | some kv =>
          cases kv with
          | jstr k =>
              cases hv : lookupStr fs "ParameterValue" with
              | none => exact absurd h (by simp [isParamRec, hk, hv])
              | some pv =>
                  have hsub : pySubscr (jobj fs) "ParameterValue" = Except.ok pv := by
                    show (match lookupStr fs "ParameterValue" with
                          | some x => Except.ok x
                          | none => Except.error (PyErr.keyError (jstr "ParameterValue"))) = _
                    rw [hv]
                  have hself : ∃ p2, (Except.ok (jobj fs) : Except PyErr JValue) = Except.ok p2 ∧
                      isParamRec p2 = true ∧ paramKeyD p2 = paramKeyD (jobj fs) :=
                    ⟨jobj fs, rfl, h, rfl⟩
                  cases pv with
                  | jstr s =>
                      have hrun : substInlineParam secrets (jobj fs) =
                          (if startsWithList "SECRET:".data s.data then
                             match lookupSecret secrets (String.mk (stripSecretAll s.data)) with
                             | some sec => Except.ok (setField (jobj fs) "ParameterValue" (jstr sec))
                             | none => Except.ok (jobj fs)
                           else Except.ok (jobj fs)) := by
                        simp only [substInlineParam]
                        rw [hsub, exceptBindOk]
                      rw [hrun]
                      by_cases hpre : startsWithList "SECRET:".data s.data = true
                      · rw [if_pos hpre]
                        cases hsec : lookupSecret secrets (String.mk (stripSecretAll s.data)) with
                        | none => exact hself
                        | some sec =>
                            have hko : lookupStr (setFieldList fs "ParameterValue" (jstr sec))
                                "ParameterKey" = some (jstr k) := by
                              rw [lookupStr_setFieldList_other fs "ParameterValue" "ParameterKey"
                                (jstr sec) (by decide), hk]
                            refine ⟨setField (jobj fs) "ParameterValue" (jstr sec), rfl, ?_, ?_⟩
                            · show isParamRec (jobj (setFieldList fs "ParameterValue" (jstr sec))) = true
                              simp [isParamRec, hko, lookupStr_setFieldList_self]
                            · show paramKeyD (jobj (setFieldList fs "ParameterValue" (jstr sec))) = _
                              simp [paramKeyD, getField, hko, hk]
                      · rw [if_neg hpre]
                        exact hself
                  | jnull =>
                      have hrun : substInlineParam secrets (jobj fs) = Except.ok (jobj fs) := by
                        simp only [substInlineParam]
                        rw [hsub, exceptBindOk]
                      rw [hrun]; exact hself
                  | jbool b =>
                      have hrun : substInlineParam secrets (jobj fs) = Except.ok (jobj fs) := by
                        simp only [substInlineParam]
                        rw [hsub, exceptBindOk]
                      rw [hrun]; exact hself
                  | jnum n =>
                      have hrun : substInlineParam secrets (jobj fs) = Except.ok (jobj fs) := by
                        simp only [substInlineParam]
                        rw [hsub, exceptBindOk]
                      rw [hrun]; exact hself
                  | jarr xs =>
                      have hrun : substInlineParam secrets (jobj fs) = Except.ok (jobj fs) := by
                        simp only [substInlineParam]
                        rw [hsub, exceptBindOk]
                      rw [hrun]; exact hself
                  | jobj xs =>
                      have hrun : substInlineParam secrets (jobj fs) = Except.ok (jobj fs) := by
                        simp only [substInlineParam]
                        rw [hsub, exceptBindOk]
                      rw [hrun]; exact hself
          | jnull => exact absurd h (by simp [isParamRec, hk])
          | jbool b => exact absurd h (by simp [isParamRec, hk])
          | jnum n => exact absurd h (by simp [isParamRec, hk])
          | jarr xs => exact absurd h (by simp [isParamRec, hk])
          | jobj xs => exact absurd h (by simp [isParamRec, hk])
  | jnull => exact absurd h (by simp [isParamRec])
  | jbool b => exact absurd h (by simp [isParamRec])
  | jnum n => exact absurd h (by simp [isParamRec])
  | jstr s => exact absurd h (by simp [isParamRec])
  | jarr xs => exact absurd h (by simp [isParamRec])

/-- On a well-formed record list, the selection of a key has as many
elements as the key has occurrences in the key list. -/
theorem paramFilter_length_count (k : String) : ∀ (l : List JValue),
    (∀ p ∈ l, isParamRec p = true) →
    (l.filter (paramKeyIs k)).length = (paramKeysOf l).count k := by
  intro l
  induction l with
  | nil => intro _; rfl
  | cons p ps2 ih =>
      intro hwf
      have hkeys : paramKeysOf (p :: ps2) = paramKeyD p :: paramKeysOf ps2 := rfl
      rw [List.filter_cons, hkeys, List.count_cons,
          ← ih (fun x hx => hwf x (by simp [hx]))]
      by_cases hK : (paramKeyD p == k) = true
      · rw [if_pos (by rw [paramKeyIs_of_wf (hwf p (by simp)) k]; exact hK), if_pos hK]
        simp
      · rw [if_neg (by rw [paramKeyIs_of_wf (hwf p (by simp)) k]; simpa using hK),
            if_neg (by simpa using hK)]
        simp

/-- The inline merge loop with its stale index: when the incoming records
have pairwise-distinct keys, none of which recurs among the keys the working
list has gained beyond the indexed base, the loop succeeds and the output
keys stay pairwise distinct. -/
theorem inlineMergeStale_nodup (secrets : List (String × String)) (K0 : List String)
    (existing : JDict)
    (hex : ∀ s, dictLookup existing (jstr s) = List.findIdx? (fun x => x == s) K0 0) :
    ∀ (ps : List JValue) (combined : List JValue),
    (∀ p ∈ ps, isParamRec p = true) → (paramKeysOf ps).Nodup →
    (∀ p ∈ combined, isParamRec p = true) → (paramKeysOf combined).Nodup →
    (∃ extra, paramKeysOf combined = K0 ++ extra) →
    (∀ s ∈ paramKeysOf combined, s ∉ K0 → s ∉ paramKeysOf ps) →
    ∃ out, inlineMergeStale secrets existing ps combined = Except.ok out ∧
      (∀ p ∈ out, isParamRec p = true) ∧ (paramKeysOf out).Nodup := by
  intro ps
  induction ps with
  | nil =>
      intro combined _ _ hwfc hndc _ _
      exact ⟨combined, rfl, hwfc, hndc⟩
  | cons p ps2 ih =>
      intro combined hwfp hndp hwfc hndc hpre hfresh
      have hp := hwfp p (by simp)
      have hkeysp : paramKeysOf (p :: ps2) = paramKeyD p :: paramKeysOf ps2 := rfl
      have hndp2 : (paramKeysOf ps2).Nodup := by
        rw [hkeysp] at hndp
        exact (List.nodup_cons.mp hndp).2
      have hpnotin : paramKeyD p ∉ paramKeysOf ps2 := by
        rw [hkeysp] at hndp
        exact (List.nodup_cons.mp hndp).1
      obtain ⟨p2, hp2run, hp2wf, hp2key⟩ := substInlineParam_ok secrets hp
      obtain ⟨extra, hextra⟩ := hpre
      have hrun : inlineMergeStale secrets existing (p :: ps2) combined =
          (match dictLookup existing (jstr (paramKeyD p)) with
           | some i => inlineMergeStale secrets existing ps2 (combined.set i p2)
           | none => inlineMergeStale secrets existing ps2 (combined ++ [p2])) := by
        simp only [inlineMergeStale]
        rw [isParamRec_subscr hp, exceptBindOk, hp2run, exceptBindOk]
        rfl
      rw [hrun, hex (paramKeyD p)]
      cases hfind : List.findIdx? (fun x => x == paramKeyD p) K0 0 with
      | some i =>
          obtain ⟨-, w, hw, hpw⟩ := findIdx?_zero_some _ K0 0 i hfind
          have hw0 : K0[i]? = some (paramKeyD p) := by
            have hweq : w = paramKeyD p := by simpa using hpw
            rw [← hweq]
            simpa using hw
          have hik : i < K0.length := by
            by_contra hge
            rw [List.getElem?_eq_none (by omega)] at hw0
            exact Option.noConfusion hw0
          have hkc : (paramKeysOf combined)[i]? = some (paramKeyD p) := by
            rw [hextra, List.getElem?_append_left hik]
            exact hw0
          have hmapc : (List.map paramKeyD combined)[i]? = some (paramKeyD p) := hkc
          rw [List.getElem?_map] at hmapc
          cases hget : combined[i]? with
          | none => rw [hget] at hmapc; simp at hmapc
          | some q =>
              rw [hget] at hmapc
              have hqkey : paramKeyD q = paramKeyD p := by simpa using hmapc
              have hkeyset : paramKeysOf (combined.set i p2) = paramKeysOf combined := by
                show List.map paramKeyD (combined.set i p2) = _
                rw [List.map_set, hp2key]
                exact set_self_getElem _ i _ hkc
              have hwfc2 : ∀ x ∈ combined.set i p2, isParamRec x = true := by
                intro x hx
                rcases List.mem_or_eq_of_mem_set hx with hm | rfl
                · exact hwfc x hm
                · exact hp2wf
              obtain ⟨out, hout, houtwf, houtnd⟩ := ih (combined.set i p2)
                (fun x hx => hwfp x (by simp [hx])) hndp2 hwfc2
                (by rw [hkeyset]; exact hndc)
                ⟨extra, by rw [hkeyset]; exact hextra⟩
                (by
                  intro s hs hsK0
                  rw [hkeyset] at hs
                  have := hfresh s hs hsK0
                  intro hc
                  exact this (by rw [hkeysp]; exact List.mem_cons_of_mem _ hc))
              exact ⟨out, hout, houtwf, houtnd⟩
      | none =>
          have hnotK0 : paramKeyD p ∉ K0 := (findIdx?_beq_none_iff _ K0 0).mp hfind
          have hnotc : paramKeyD p ∉ paramKeysOf combined := by
            intro hc
            exact hfresh (paramKeyD p) hc hnotK0 (by rw [hkeysp]; exact List.mem_cons_self _ _)
          have hkeysapp : paramKeysOf (combined ++ [p2]) =
              paramKeysOf combined ++ [paramKeyD p] := by
            show List.map paramKeyD (combined ++ [p2]) = _
            rw [List.map_append]
            show _ ++ [paramKeyD p2] = _
            rw [hp2key]
            rfl
          have hwfc2 : ∀ x ∈ combined ++ [p2], isParamRec x = true := by
            intro x hx
            rcases List.mem_append.mp hx with hm | hm
            · exact hwfc x hm
            · rw [List.mem_singleton] at hm
              rw [hm]
              exact hp2wf
          obtain ⟨out, hout, houtwf, houtnd⟩ := ih (combined ++ [p2])
            (fun x hx => hwfp x (by simp [hx])) hndp2 hwfc2
            (by
              rw [hkeysapp, List.nodup_append]
              refine ⟨hndc, List.nodup_singleton _, ?_⟩
              intro x hx hx2
              rw [List.mem_singleton] at hx2
              rw [hx2] at hx
              exact hnotc hx)
            ⟨extra ++ [paramKeyD p], by rw [hkeysapp, hextra, List.append_assoc]⟩
            (by
              intro s hs hsK0
              rw [hkeysapp] at hs
              rcases List.mem_append.mp hs with hm | hm
              · have := hfresh s hm hsK0
                intro hc
                exact this (by rw [hkeysp]; exact List.mem_cons_of_mem _ hc)
              · rw [List.mem_singleton] at hm
                rw [hm]
                exact hpnotin)
          exact ⟨out, hout, houtwf, houtnd⟩

/-- C3, amended: the inline phase of `ParameterProcessor` keeps parameter
keys unique only when the incoming inline records carry pairwise-distinct
keys (always the case when the inline JSON is an object, but not when it is
a list — see the duplicated-key counterexample): under that hypothesis every
key appears exactly once in the merged output, and merging the same inline
source a second time still yields each key exactly once. -/
theorem inline_merge_unique_keys_when_inline_distinct
    (ps combined : List JValue) (secrets : List (String × String))
    (hwfp : ∀ p ∈ ps, isParamRec p = true)
    (hndp : (paramKeysOf ps).Nodup)
    (hwfc : ∀ p ∈ combined, isParamRec p = true)
    (hndc : (paramKeysOf combined).Nodup) :
    ∃ out, process_inline_parameters (JsonSrc.parsed (jarr ps)) combined secrets = Except.ok out ∧
      (∀ p ∈ out, isParamRec p = true) ∧ (paramKeysOf out).Nodup ∧
      (∀ k ∈ paramKeysOf out, (out.filter (paramKeyIs k)).length = 1) ∧
      ∃ out2, process_inline_parameters (JsonSrc.parsed (jarr ps)) out secrets = Except.ok out2 ∧
        ∀ k ∈ paramKeysOf out2, (out2.filter (paramKeyIs k)).length = 1 := by
  have main : ∀ (c : List JValue), (∀ p ∈ c, isParamRec p = true) → (paramKeysOf c).Nodup →
      ∃ out, process_inline_parameters (JsonSrc.parsed (jarr ps)) c secrets = Except.ok out ∧
        (∀ p ∈ out, isParamRec p = true) ∧ (paramKeysOf out).Nodup := by
    intro c hwf hnd
    obtain ⟨d2, hbi, hd2, hlook⟩ := buildIndexBy_lookup "ParameterKey" paramKeyD c
      (fun q hq => isParamRec_subscr (hwf q hq)) hnd
    have hform : process_inline_parameters (JsonSrc.parsed (jarr ps)) c secrets =
        (buildIndexBy "ParameterKey" c >>= fun existing =>
          inlineMergeStale secrets existing ps c) := rfl
    obtain ⟨out, hout, houtwf, houtnd⟩ :=
      inlineMergeStale_nodup secrets (paramKeysOf c) d2 (fun s => hlook s) ps c
        hwfp hndp hwf hnd ⟨[], by rw [List.append_nil]⟩
        (fun s hs hns => absurd hs hns)
    refine ⟨out, ?_, houtwf, houtnd⟩
    rw [hform, hbi, exceptBindOk]
    exact hout
  obtain ⟨out, hout, houtwf, houtnd⟩ := main combined hwfc hndc
  obtain ⟨out2, hout2, hout2wf, hout2nd⟩ := main out houtwf houtnd
  refine ⟨out, hout, houtwf, houtnd, ?_, out2, hout2, ?_⟩
  · intro k hk
    rw [paramFilter_length_count k out houtwf]
    exact List.count_eq_one_of_mem houtnd hk
  · intro k hk
    rw [paramFilter_length_count k out2 hout2wf]
    exact List.count_eq_one_of_mem hout2nd hk

/-- Witness for `inline_merge_unique_keys_when_inline_distinct`: one file
record with key `A`, an inline list with distinct keys `A` and `B`; the
merged output and the re-merged output hold each key exactly once. -/
theorem inline_merge_unique_keys_when_inline_distinct_witness :
    (∀ p ∈ [jobj [("ParameterKey", jstr "A"), ("ParameterValue", jstr "2")],
            jobj [("ParameterKey", jstr "B"), ("ParameterValue", jstr "3")]],
      isParamRec p = true) ∧
    (paramKeysOf [jobj [("ParameterKey", jstr "A"), ("ParameterValue", jstr "2")],
                  jobj [("ParameterKey", jstr "B"), ("ParameterValue", jstr "3")]]).Nodup ∧
    ∃ out, process_inline_parameters
        (JsonSrc.parsed (jarr [jobj [("ParameterKey", jstr "A"), ("ParameterValue", jstr "2")],
                               jobj [("ParameterKey", jstr "B"), ("ParameterValue", jstr "3")]]))
        [jobj [("ParameterKey", jstr "A"), ("ParameterValue", jstr "1")]] [] = Except.ok out ∧
      (∀ p ∈ out, isParamRec p = true) ∧ (paramKeysOf out).Nodup ∧
      (∀ k ∈ paramKeysOf out, (out.filter (paramKeyIs k)).length = 1) ∧
      ∃ out2, process_inline_parameters
          (JsonSrc.parsed (jarr [jobj [("ParameterKey", jstr "A"), ("ParameterValue", jstr "2")],
                                 jobj [("ParameterKey", jstr "B"), ("ParameterValue", jstr "3")]]))
          out [] = Except.ok out2 ∧
        ∀ k ∈ paramKeysOf out2, (out2.filter (paramKeyIs k)).length = 1 := by
  have hwfp : ∀ p ∈ [jobj [("ParameterKey", jstr "A"), ("ParameterValue", jstr "2")],
      jobj [("ParameterKey", jstr "B"), ("ParameterValue", jstr "3")]], isParamRec p = true := by
    intro p hp
    rcases List.mem_cons.mp hp with rfl | hp2
    · rfl
    · rw [List.mem_singleton] at hp2
      rw [hp2]
      rfl
  have hndp : (paramKeysOf [jobj [("ParameterKey", jstr "A"), ("ParameterValue", jstr "2")],
      jobj [("ParameterKey", jstr "B"), ("ParameterValue", jstr "3")]]).Nodup := by
    rw [show paramKeysOf [jobj [("ParameterKey", jstr "A"), ("ParameterValue", jstr "2")],
        jobj [("ParameterKey", jstr "B"), ("ParameterValue", jstr "3")]] = ["A", "B"] from rfl]
    decide
  refine ⟨hwfp, hndp, ?_⟩
  exact inline_merge_unique_keys_when_inline_distinct
    [jobj [("ParameterKey", jstr "A"), ("ParameterValue", jstr "2")],
     jobj [("ParameterKey", jstr "B"), ("ParameterValue", jstr "3")]]
    [jobj [("ParameterKey", jstr "A"), ("ParameterValue", jstr "1")]] []
    hwfp hndp
    (by
      intro p hp
      rw [List.mem_singleton] at hp
      rw [hp]
      rfl)
    (by
      rw [show paramKeysOf [jobj [("ParameterKey", jstr "A"), ("ParameterValue", jstr "1")]]
          = ["A"] from rfl]
      exact List.nodup_singleton _)
